import Mathlib

/-!
Verification development for agentThreshold.py, a Hyperliquid vault
position monitor.  The pipeline parts that the claims concern are
embedded shallowly: Python Decimal values become rationals (ℚ), strings
become Lean strings (reasoned about through their character lists), the
Playwright page objects become explicit environments (functions giving
the poll results), and fallible operations return Option or Except.
All definitions are executable.
-/

/-! ## Character-level helpers (Python str.strip / str.replace) -/

/-- Whitespace characters stripped by Python str.strip (ASCII range). -/
def isPySpace (c : Char) : Bool :=
  c == ' ' || c == '\t' || c == '\n' || c == '\r' || c == '\x0b' || c == '\x0c'

/-- Python str.strip on a character list: drop whitespace from both ends. -/
def pythonStrip (l : List Char) : List Char :=
  ((l.dropWhile isPySpace).reverse.dropWhile isPySpace).reverse

/-- Python str.strip on a string (line 59 and cell trimming at lines 146, 172). -/
def strip (s : String) : String :=
  String.mk (pythonStrip s.toList)

/-- Python str.upper, character by character (ASCII case mapping, which is
all the "COIN" header comparison needs). -/
def pyUpper (s : String) : String :=
  String.mk (s.toList.map Char.toUpper)

/-- Python str.replace of the three-character substring "USD" by the empty
string: one left-to-right pass, non-overlapping occurrences (line 58). -/
def removeUSD : List Char → List Char
  | [] => []
  | [c] => [c]
  | [c1, c2] => [c1, c2]
  | c1 :: c2 :: c3 :: rest =>
      if c1 = 'U' ∧ c2 = 'S' ∧ c3 = 'D' then removeUSD rest
      else c1 :: removeUSD (c2 :: c3 :: rest)

/-- The sanitization of parse_decimal_from_text (lines 55-60): remove every
comma, then every dollar sign, then every "USD" substring, then strip. -/
def sanitizeChars (s : String) : List Char :=
  pythonStrip (removeUSD ((s.toList.filter (fun c => decide (c ≠ ','))).filter
    (fun c => decide (c ≠ '$'))))

/-! ## The regex engine for NUMERIC_PATTERN

NUMERIC_PATTERN (line 34) is -?\d+(?:\.\d+)?; Python re.search returns the
leftmost match, with greedy digit runs.  digits are modelled as ASCII
digits, which covers all text the page and the spec examples use. -/

/-- Greedy match of (?:\.\d+)? at the current point. -/
def matchFrac (l : List Char) : List Char :=
  match l with
  | [] => []
  | c :: rest =>
      if c = '.' then
        let fs := rest.takeWhile Char.isDigit
        if fs.isEmpty then [] else '.' :: fs
      else []

/-- Greedy match of -?\d+(?:\.\d+)? anchored at the head of l
(none when no match starts here). -/
def matchNumAt (l : List Char) : Option (List Char) :=
  match l with
  | [] => none
  | c :: rest =>
      if c = '-' then
        let ds := rest.takeWhile Char.isDigit
        if ds.isEmpty then none
        else some ('-' :: (ds ++ matchFrac (rest.dropWhile Char.isDigit)))
      else
        let ds := (c :: rest).takeWhile Char.isDigit
        if ds.isEmpty then none
        else some (ds ++ matchFrac ((c :: rest).dropWhile Char.isDigit))

/-- re.search for NUMERIC_PATTERN: try each start position left to right,
return the first (greedy) match. -/
def searchNum : List Char → Option (List Char)
  | [] => none
  | c :: rest =>
      match matchNumAt (c :: rest) with
      | some m => some m
      | none => searchNum rest

/-! ## Python Decimal conversion of a digit token -/

/-- Numeric value of a big-endian ASCII digit string. -/
def digitsVal (ds : List Char) : ℕ :=
  ds.foldl (fun a c => 10 * a + (c.toNat - 48)) 0

/-- Decimal(text) for an unsigned token, restricted to the digit and
decimal-point forms that can reach it here (Decimal also accepts
exponents and named specials, which no NUMERIC_PATTERN match contains);
none models InvalidOperation. -/
def pyDecimalUnsigned (l : List Char) : Option ℚ :=
  let ds := l.takeWhile Char.isDigit
  match l.dropWhile Char.isDigit with
  | [] => if ds.isEmpty then none else some ((digitsVal ds : ℕ) : ℚ)
  | c :: fs =>
      if c = '.' ∧ fs.all Char.isDigit ∧ ¬(ds.isEmpty ∧ fs.isEmpty) then
        some ((digitsVal ds : ℚ) + (digitsVal fs : ℚ) / (10 : ℚ) ^ fs.length)
      else none

/-- Decimal(text) with an optional leading minus sign (lines 64-67). -/
def pyDecimal (l : List Char) : Option ℚ :=
  match l with
  | [] => none
  | c :: rest =>
      if c = '-' then (pyDecimalUnsigned rest).map (fun q => -q)
      else pyDecimalUnsigned (c :: rest)

/-- parse_decimal_from_text (lines 52-67).  The input is an Option to model
the explicit raw_text is None test; the InvalidOperation branch is the
none result of pyDecimal. -/
def parse_decimal_from_text (raw_text : Option String) : Option ℚ :=
  match raw_text with
  | none => none
  | some s =>
      match searchNum (sanitizeChars s) with
      | none => none
      | some m => pyDecimal m

/-! ## Data model: Position (lines 36-49) and the threshold constant -/

/-- POSITION_VALUE_THRESHOLD = Decimal("50000") (line 30). -/
def POSITION_VALUE_THRESHOLD : ℚ := 50000

/-- TABLE_WAIT_SECONDS = 45 (line 31). -/
def TABLE_WAIT_SECONDS : ℕ := 45

/-- ROW_POLL_INTERVAL_MS = 1500 (line 32). -/
def ROW_POLL_INTERVAL_MS : ℕ := 1500

/-- The Position dataclass (lines 36-41); Decimal fields become ℚ. -/
structure Position where
  coin : String
  leverage : String
  size : ℚ
  mark_price : ℚ
deriving DecidableEq

/-- position_value property (lines 43-45). -/
def Position.position_value (p : Position) : ℚ := p.size * p.mark_price

/-- absolute_position_value property (lines 47-49): copy_abs. -/
def Position.absolute_position_value (p : Position) : ℚ := |p.position_value|

/-! ## Position Builder: the row loop of scrape_perp_positions (lines 169-192) -/

/-- One iteration of the row loop (lines 169-192): trim cells, skip an echoed
header row, pad to 4 cells, extract fields, and validate; none models the
continue branches. -/
def build_row (row : List String) : Option Position :=
  match row with
  | [] => none
  | _ :: _ =>
      let normalized := row.map strip
      if pyUpper (normalized.headD "") = "COIN" then none
      else
        let padded := normalized ++ List.replicate (4 - normalized.length) ""
        let coin := padded.getD 0 ""
        let leverage := padded.getD 1 ""
        let size_value := parse_decimal_from_text (some (padded.getD 2 ""))
        let mark_value := parse_decimal_from_text (some (padded.getD 3 ""))
        if coin = "" then none
        else
          match size_value, mark_value with
          | some sv, some mv => some ⟨coin, leverage, sv, mv⟩
          | _, _ => none

/-- The whole row loop: positions appended in input order, invalid rows
dropped in place. -/
def build_positions (raw_rows : List (List String)) : List Position :=
  raw_rows.filterMap build_row

/-! ## Threshold Evaluator (main, lines 256-258) -/

/-- The list comprehension selecting positions whose absolute value strictly
exceeds the threshold. -/
def exceeding_positions (positions : List Position) : List Position :=
  positions.filter (fun p => decide (POSITION_VALUE_THRESHOLD < p.absolute_position_value))

/-! ## Row Collector (collect_table_rows, lines 130-150) -/

/-- The ordered row-selection strategies (lines 114 and 131). -/
def ROW_SELECTORS : List String := ["tbody tr", "tr", "[role='row']"]

/-- A row element: its td cell texts and its ARIA-cell texts. -/
structure DomRow where
  tdCells : List String
  ariaCells : List String

/-- A located table: the row elements each selector strategy finds in it. -/
structure DomTable where
  rowsUnder : String → List DomRow

/-- Cell extraction for one row (lines 140-147): prefer td cells, fall back
to ARIA cells when there are none; skip the row when both are empty;
otherwise collect each cell text trimmed. -/
def collect_row (r : DomRow) : Option (List String) :=
  let cells := if r.tdCells.length = 0 then r.ariaCells else r.tdCells
  if cells.length = 0 then none else some (cells.map strip)

/-- The strategy loop of collect_table_rows (lines 132-149). -/
def collectGo (t : DomTable) : List String → List (List String)
  | [] => []
  | sel :: rest =>
      let rowLoc := t.rowsUnder sel
      if rowLoc.length = 0 then collectGo t rest
      else
        let rows := rowLoc.filterMap collect_row
        if rows.isEmpty then collectGo t rest else rows

/-- collect_table_rows (lines 130-150). -/
def collect_table_rows (t : DomTable) : List (List String) :=
  collectGo t ROW_SELECTORS

/-! ## Retry/Wait Controller (wait_for_perp_table, lines 106-127)

Time is modelled in milliseconds starting at 0; locating and probing are
instantaneous, page.wait_for_timeout advances the clock by
ROW_POLL_INTERVAL_MS.  Each attempt's locate_perp_table outcome is an
environment function from the attempt number (starting at 1, as in the
source) to an optional table; a probed row count either returns a number
or raises (Except.error carries the exception text). -/

/-- A locatable table handle: row count per selector, possibly raising. -/
structure ProbeTable where
  count : String → Except String ℕ

/-- The inner probe loop (lines 114-122): try each selector in order,
treating a raised exception as count 0 while recording it in last_error;
true means a positive count was seen and the table is returned. -/
def probe_rows (tbl : ProbeTable) : List String → Option String → Option String × Bool
  | [], lastErr => (lastErr, false)
  | sel :: rest, lastErr =>
      match tbl.count sel with
      | Except.ok n => if 0 < n then (lastErr, true) else probe_rows tbl rest lastErr
      | Except.error exc => probe_rows tbl rest (some exc)

/-- The while loop of wait_for_perp_table: t is the clock in ms, the
deadline is TABLE_WAIT_SECONDS·1000 from the start; error carries the
last observed internal error (the RuntimeError raised from last_error). -/
def wait_loop (env : ℕ → Option ProbeTable) (t attempt : ℕ) (lastErr : Option String) :
    Except (Option String) (ProbeTable × ℕ) :=
  if t < TABLE_WAIT_SECONDS * 1000 then
    match env attempt with
    | some tbl =>
        let pr := probe_rows tbl ROW_SELECTORS lastErr
        if pr.2 then Except.ok (tbl, attempt)
        else wait_loop env (t + ROW_POLL_INTERVAL_MS) (attempt + 1) pr.1
    | none => wait_loop env (t + ROW_POLL_INTERVAL_MS) (attempt + 1) lastErr
  else Except.error lastErr
termination_by TABLE_WAIT_SECONDS * 1000 - t
decreasing_by
  all_goals
    simp only [TABLE_WAIT_SECONDS, ROW_POLL_INTERVAL_MS] at *
    omega

/-- wait_for_perp_table (lines 106-127): attempt counter starts at 1. -/
def wait_for_perp_table (env : ℕ → Option ProbeTable) :
    Except (Option String) (ProbeTable × ℕ) :=
  wait_loop env 0 1 none

/-! ## Display formatting (format_decimal, format_currency, lines 70-78)

Python format of a Decimal with spec ",.6f" ("," grouping, 6 decimal
places, ROUND_HALF_EVEN): rendered here from the exact value.  ℚ has no
negative zero, so the sign of a zero-valued Decimal is not represented;
no claim depends on it. -/

/-- ROUND_HALF_EVEN of a rational to an integer. -/
def roundHalfEven (q : ℚ) : ℤ :=
  let z := ⌊q⌋
  let f := q - (z : ℚ)
  if f < 1 / 2 then z
  else if 1 / 2 < f then z + 1
  else if Even z then z else z + 1

/-- Digit-accumulating loop for rendering a natural number in base 10; the
first argument is fuel (n itself always suffices since n / 10 shrinks). -/
def natDigitsAux : ℕ → ℕ → List Char → List Char
  | 0, _, acc => acc
  | fuel + 1, n, acc =>
      if n = 0 then acc else natDigitsAux fuel (n / 10) (Nat.digitChar (n % 10) :: acc)

/-- Big-endian decimal digit characters of a natural number. -/
def natToDigitList (n : ℕ) : List Char :=
  if n = 0 then ['0'] else natDigitsAux n n []

/-- Thousands grouping of a reversed digit list: after every three
characters taken from the right, insert a comma. -/
def group3Rev : List Char → List Char
  | a :: b :: c :: d :: rest => a :: b :: c :: ',' :: group3Rev (d :: rest)
  | l => l

/-- Python "," grouping of a big-endian digit list. -/
def group3 (ds : List Char) : List Char := (group3Rev ds.reverse).reverse

/-- The six fractional digits printed by "%.6f" for a fraction a/10^6. -/
def frac6Digits (a : ℕ) : List Char :=
  (List.range 6).map (fun i => Nat.digitChar (a / 10 ^ (5 - i) % 10))

/-- The two fractional digits printed by "%.2f" for a value a/100. -/
def twoFracDigits (a : ℕ) : List Char :=
  [Nat.digitChar (a / 10 % 10), Nat.digitChar (a % 10)]

/-- Python str.rstrip of zero characters. -/
def rstripZeros (l : List Char) : List Char :=
  (l.reverse.dropWhile (fun c => decide (c = '0'))).reverse

/-- Python str.rstrip of dot characters. -/
def rstripDots (l : List Char) : List Char :=
  (l.reverse.dropWhile (fun c => decide (c = '.'))).reverse

/-- format_decimal (lines 70-74): f-string ",.6f" then rstrip("0") and
rstrip(".") — the formatted text always contains a dot, so the source's
guard on "." is always taken. -/
def format_decimal (v : ℚ) : String :=
  let n := roundHalfEven (v * 10 ^ 6)
  let a := n.natAbs
  let sign : List Char := if n < 0 then ['-'] else []
  String.mk (rstripDots (rstripZeros
    (sign ++ group3 (natToDigitList (a / 10 ^ 6)) ++ '.' :: frac6Digits (a % 10 ^ 6))))

/-- format_currency (lines 77-78): f-string "$" prefix and ",.2f". -/
def format_currency (v : ℚ) : String :=
  let n := roundHalfEven (v * 10 ^ 2)
  let a := n.natAbs
  let sign : List Char := if n < 0 then ['-'] else []
  String.mk ('$' :: (sign ++ group3 (natToDigitList (a / 10 ^ 2)) ++ '.' :: twoFracDigits (a % 10 ^ 2)))

/-! ## Alert composition (lines 200-224) and the main body choice (260-265) -/

/-- The per-position block of build_alert_body (lines 207-218). -/
def posLines (p : Position) : List String :=
  ["- Coin: " ++ p.coin,
   "  Leverage: " ++ (if p.leverage = "" then "N/A" else p.leverage),
   "  Size: " ++ format_decimal p.size,
   "  Mark Price: " ++ format_currency p.mark_price,
   "  Position Value (Size × Mark): " ++ format_currency p.position_value,
   "  Absolute Value: " ++ format_currency p.absolute_position_value,
   ""]

/-- build_alert_body (lines 200-220): lines joined by newline, then strip. -/
def build_alert_body (exceeding : List Position) : String :=
  strip (String.intercalate "\n"
    (["🚨 Hyperliquid PERP Position Threshold Triggered 🚨",
      "",
      "The following positions exceeded the " ++ format_currency POSITION_VALUE_THRESHOLD
        ++ " threshold (absolute value):",
      ""]
     ++ (exceeding.map posLines).flatten
     ++ ["Monitoring agent: agentThreshold.py"]))

/-- build_no_alert_body (lines 223-224).  The Python source spells the
dollar sign as the two characters backslash, dollar (an unrecognized
escape, kept literally); the Lean literal below escapes the backslash. -/
def build_no_alert_body : String :=
  "No coin exceeds the \\$50,000 position value threshold."

/-- The body selection of main (lines 260-265). -/
def main_body (positions : List Position) : String :=
  let exceeding := exceeding_positions positions
  if exceeding.isEmpty then build_no_alert_body else build_alert_body exceeding

/-! ## Spec-side definitions

These follow the wording of the specification and the claims, for the
refinement statements; they are compared with the source-side functions
above. -/

/-- Digit-string shape of an unsigned numeric token: one or more digits,
optionally followed by a decimal point and one or more digits. -/
def unsignedShapeB (l : List Char) : Bool :=
  let ds := l.takeWhile Char.isDigit
  match l.dropWhile Char.isDigit with
  | [] => !ds.isEmpty
  | c :: fs => !ds.isEmpty && c == '.' && !fs.isEmpty && fs.all Char.isDigit

/-- Token shape of the claim: an optional leading minus sign followed by
digits, optionally followed by a decimal point and more digits. -/
def numShapeB (m : List Char) : Bool :=
  match m with
  | [] => false
  | c :: rest => if c = '-' then unsignedShapeB rest else unsignedShapeB (c :: rest)

/-- m matches the numeric pattern as a substring of s starting at index i. -/
def MatchAt (s : List Char) (i : ℕ) (m : List Char) : Prop :=
  numShapeB m = true ∧ m <+: s.drop i

/-- m is the first (leftmost, and longest at its position) numeric-pattern
substring of s. -/
def IsFirstMatch (s m : List Char) : Prop :=
  ∃ i, MatchAt s i m ∧
    (∀ j m', j < i → ¬ MatchAt s j m') ∧
    (∀ m', MatchAt s i m' → m'.length ≤ m.length)

/-- Claim-side cell access of the Position Builder: the i-th cell of the
row padded with empty strings, trimmed. -/
def specCell (row : List String) (i : ℕ) : String := strip (row.getD i "")

/-- Claim-side acceptance condition of the amended Position Builder claim:
coin cell non-empty and not the echoed header, size and mark cells parse. -/
def specRowOk (row : List String) : Bool :=
  decide (specCell row 0 ≠ "") && decide (pyUpper (specCell row 0) ≠ "COIN")
    && (parse_decimal_from_text (some (specCell row 2))).isSome
    && (parse_decimal_from_text (some (specCell row 3))).isSome

/-- Claim-side Position constructed from an accepted row. -/
def specPosition (row : List String) : Position :=
  ⟨specCell row 0, specCell row 1,
   (parse_decimal_from_text (some (specCell row 2))).getD 0,
   (parse_decimal_from_text (some (specCell row 3))).getD 0⟩

/-- Claim-side row set of one strategy: its rows after cell extraction. -/
def strategyRows (t : DomTable) (sel : String) : List (List String) :=
  (t.rowsUnder sel).filterMap collect_row

/-! ## Concrete instances used in witnesses and counterexamples -/

/-- A table whose first strategy finds one row without any cells and whose
second strategy finds one row with a single cell. -/
def exTableC6 : DomTable :=
  ⟨fun sel =>
    if sel = "tbody tr" then [⟨[], []⟩]
    else if sel = "tr" then [⟨["X"], []⟩]
    else []⟩

/-- A table handle reporting zero rows under every selector. -/
def zeroTable : ProbeTable := ⟨fun _ => Except.ok 0⟩

/-- A table handle reporting three rows under every selector. -/
def posTable : ProbeTable := ⟨fun _ => Except.ok 3⟩

/-- A poll environment: the first poll sees an empty table, every later
poll sees a populated one. -/
def envLateRows : ℕ → Option ProbeTable :=
  fun k => if k = 1 then some zeroTable else some posTable

/-- A poll environment in which no poll ever sees rows. -/
def envNeverRows : ℕ → Option ProbeTable := fun _ => some zeroTable

/-! ## General helper lemmas -/

theorem filterMap_eq_filter_map {α β : Type} (g : α → Option β) (p : α → Bool) (f : α → β)
    (hg : ∀ a, g a = if p a then some (f a) else none) :
    ∀ l : List α, l.filterMap g = (l.filter p).map f := by
  intro l
  induction l with
  | nil => rfl
  | cons a l ih =>
      rw [List.filterMap_cons, List.filter_cons, hg a]
      by_cases hpa : p a = true
      · simp [hpa, ih]
      · simp [hpa, ih]

/-! ## Claim C3: the Threshold Evaluator -/

/-- Claim C3: for every sequence of Positions and the fixed threshold, the
Threshold Evaluator selects exactly those Positions whose absolute position
value |size × markPrice| strictly exceeds the threshold; with threshold
50000 and position values [60000, -40000, -70000] it selects exactly the
first and third and excludes the second. -/
theorem claim_C3 :
    (∀ (ps : List Position) (p : Position),
        p ∈ exceeding_positions ps ↔
          p ∈ ps ∧ POSITION_VALUE_THRESHOLD < |p.size * p.mark_price|)
    ∧ exceeding_positions
        [⟨"A", "", 600, 100⟩, ⟨"B", "", -400, 100⟩, ⟨"C", "", -700, 100⟩]
      = [⟨"A", "", 600, 100⟩, ⟨"C", "", -700, 100⟩] := by
  constructor
  · intro ps p
    simp [exceeding_positions, List.mem_filter,
      Position.absolute_position_value, Position.position_value]
  · have e1 : |(600 : ℚ) * 100| = 60000 := by rw [abs_of_nonneg] <;> norm_num
    have e2 : |(-400 : ℚ) * 100| = 40000 := by rw [abs_of_nonpos] <;> norm_num
    have e3 : |(-700 : ℚ) * 100| = 70000 := by rw [abs_of_nonpos] <;> norm_num
    simp only [exceeding_positions, List.filter_cons, List.filter_nil,
      Position.absolute_position_value, Position.position_value, e1, e2, e3,
      POSITION_VALUE_THRESHOLD]
    norm_num

/-! ## Claim C8: Positions pass through the pipeline unchanged -/

/-- Claim C8: every Position is immutable once built — in this pure
embedding, the threshold evaluation returns a sublist of its input, each
selected record being one of the input records with coin, leverage, size
and mark price unchanged; derived-value computation and alert composition
are functions that only read the record. -/
theorem claim_C8 :
    ∀ ps : List Position,
      List.Sublist (exceeding_positions ps) ps
      ∧ ∀ p ∈ exceeding_positions ps, ∃ q ∈ ps,
          p.coin = q.coin ∧ p.leverage = q.leverage
            ∧ p.size = q.size ∧ p.mark_price = q.mark_price := by
  intro ps
  refine ⟨List.filter_sublist ps, ?_⟩
  intro p hp
  exact ⟨p, List.mem_of_mem_filter hp, rfl, rfl, rfl, rfl⟩

/-! ## Claim C9: sanitization merges digit groups joined by the tokens -/

/-- Claim C9: the sanitization removes every comma, dollar sign and "USD"
occurrence before the regex search, so digit groups joined only by those
tokens merge: "3USD4" parses to 34 and "5$6" to 56. -/
theorem claim_C9 :
    sanitizeChars "3USD4" = ['3', '4']
    ∧ sanitizeChars "5$6" = ['5', '6']
    ∧ parse_decimal_from_text (some "3USD4") = some 34
    ∧ parse_decimal_from_text (some "5$6") = some 56 := by
  refine ⟨by decide, by decide, ?_, ?_⟩
  · have h : searchNum (sanitizeChars "3USD4") = some ['3', '4'] := by decide
    simp only [parse_decimal_from_text, h]
    rw [show pyDecimal ['3', '4'] = some ((34 : ℕ) : ℚ) from rfl]
    norm_num
  · have h : searchNum (sanitizeChars "5$6") = some ['5', '6'] := by decide
    simp only [parse_decimal_from_text, h]
    rw [show pyDecimal ['5', '6'] = some ((56 : ℕ) : ℚ) from rfl]
    norm_num

/-! ## Position Builder lemmas (claims C2 and C7) -/

theorem strip_empty : strip "" = "" := rfl

theorem padded_getD (l : List String) (i : ℕ) (hi : i < 4) :
    (List.map strip l ++ List.replicate (4 - (List.map strip l).length) "").getD i ""
      = specCell l i := by
  interval_cases i <;>
    rcases l with _ | ⟨a, _ | ⟨b, _ | ⟨c, _ | ⟨d, t⟩⟩⟩⟩ <;>
      rfl

/-- build_row agrees pointwise with the claim-side acceptance condition,
corrected by the header-row exclusion. -/
theorem build_row_eq (row : List String) :
    build_row row = if specRowOk row then some (specPosition row) else none := by
  match row with
  | [] =>
      have h : specRowOk [] = false := by decide
      rw [h]
      rfl
  | c :: cs =>
      have h0 := padded_getD (c :: cs) 0 (by omega)
      have h1 := padded_getD (c :: cs) 1 (by omega)
      have h2 := padded_getD (c :: cs) 2 (by omega)
      have h3 := padded_getD (c :: cs) 3 (by omega)
      have hhead : ((List.map strip (c :: cs)).headD "") = specCell (c :: cs) 0 := rfl
      simp only [build_row, hhead, h0, h1, h2, h3]
      by_cases hdr : pyUpper (specCell (c :: cs) 0) = "COIN"
      · rw [if_pos hdr]
        have hok : specRowOk (c :: cs) = false := by simp [specRowOk, hdr]
        rw [hok]
        simp
      · rw [if_neg hdr]
        by_cases hcoin : specCell (c :: cs) 0 = ""
        · rw [if_pos hcoin]
          have hok : specRowOk (c :: cs) = false := by simp [specRowOk, hcoin]
          rw [hok]
          simp
        · rw [if_neg hcoin]
          rcases hsv : parse_decimal_from_text (some (specCell (c :: cs) 2)) with _ | sv
          · have hok : specRowOk (c :: cs) = false := by simp [specRowOk, hsv]
            rw [hok]
            simp
          · rcases hmv : parse_decimal_from_text (some (specCell (c :: cs) 3)) with _ | mv
            · have hok : specRowOk (c :: cs) = false := by simp [specRowOk, hmv]
              rw [hok]
              simp
            · have hok : specRowOk (c :: cs) = true := by
                simp [specRowOk, hdr, hcoin, hsv, hmv]
              rw [hok]
              simp [specPosition, hsv, hmv]

/-- Claim C2 (amended): the Position Builder pads short rows with empty
strings, ignores cells beyond the fourth, and emits a Position for a row
exactly when its first trimmed cell is non-empty, is not the echoed
header "COIN" (after upper-casing), and its size and mark cells parse;
rows are dropped in place, order is preserved, and no emitted Position
has an empty coin. -/
theorem claim_C2_amended :
    ∀ rows : List (List String),
      build_positions rows = (rows.filter specRowOk).map specPosition
      ∧ ∀ p ∈ build_positions rows, p.coin ≠ "" := by
  intro rows
  have hmain := filterMap_eq_filter_map build_row specRowOk specPosition build_row_eq rows
  refine ⟨hmain, ?_⟩
  intro p hp
  rw [build_positions, hmain] at hp
  rcases List.mem_map.mp hp with ⟨row, hrow, hpe⟩
  have hok : specRowOk row = true := List.of_mem_filter hrow
  have : specCell row 0 ≠ "" := by
    by_contra hemp
    simp [specRowOk, hemp] at hok
  rw [← hpe]
  exact this

/-- Counterexample to claim C2 as stated: the row ["COIN", "x", "1", "2"]
has a non-empty first cell and parseable size and mark cells, yet the
builder emits no Position for it (the header-row exclusion fires). -/
theorem claim_C2_counterexample :
    build_positions [["COIN", "x", "1", "2"]] = []
    ∧ strip "COIN" ≠ ""
    ∧ (parse_decimal_from_text (some (strip "1"))).isSome = true
    ∧ (parse_decimal_from_text (some (strip "2"))).isSome = true := by
  refine ⟨by decide, by decide, by decide, by decide⟩

/-- Claim C7: a RawRow whose first cell trims and upper-cases to "COIN" is
excluded from the builder output regardless of its other cells. -/
theorem claim_C7 (c : String) (cs : List String)
    (h : pyUpper (strip c) = "COIN") :
    build_row (c :: cs) = none
    ∧ ∀ pre post : List (List String),
        build_positions (pre ++ (c :: cs) :: post) = build_positions (pre ++ post) := by
  have hrow : build_row (c :: cs) = none := by
    have hhead : ((List.map strip (c :: cs)).headD "") = strip c := rfl
    simp only [build_row, hhead, h]
    simp
  refine ⟨hrow, ?_⟩
  intro pre post
  simp only [build_positions, List.filterMap_append, List.filterMap_cons, hrow]

/-- Witness for claim C7 at the concrete header row [" CoIn ", "5x", "1", "2"]. -/
theorem claim_C7_witness :
    build_row [" CoIn ", "5x", "1", "2"] = none
    ∧ build_positions [["BTC", "3x", "2", "5"], [" CoIn ", "5x", "1", "2"]]
      = build_positions [["BTC", "3x", "2", "5"]] := by
  have h := claim_C7 " CoIn " ["5x", "1", "2"] (by decide)
  exact ⟨h.1, by simpa using h.2 [["BTC", "3x", "2", "5"]] []⟩

/-! ## Row Collector (claim C6) -/

theorem collectGo_eq (t : DomTable) :
    ∀ sels : List String,
      collectGo t sels
        = (sels.findSome? (fun sel =>
            if (strategyRows t sel).isEmpty then none else some (strategyRows t sel))).getD [] := by
  intro sels
  induction sels with
  | nil => rfl
  | cons sel rest ih =>
      rw [List.findSome?_cons]
      by_cases hlen : (t.rowsUnder sel).length = 0
      · have hnil : t.rowsUnder sel = [] := List.length_eq_zero.mp hlen
        have hemp : (strategyRows t sel).isEmpty = true := by simp [strategyRows, hnil]
        simp only [collectGo, hlen, if_pos, hemp, if_true, ih]
      · by_cases hemp : (strategyRows t sel).isEmpty = true
        · simp only [collectGo, strategyRows] at *
          simp [hlen, hemp, ih]
        · simp only [collectGo, strategyRows] at *
          simp [hlen, hemp]

/-- Claim C6 (amended): the Row Collector returns the extracted row set of
the first strategy whose extraction yields at least one row with cells —
a strategy with a positive row count all of whose rows lack cells is
passed over like an empty one; rows with zero cells are skipped, kept
cells are trimmed (preferring td cells, falling back to ARIA cells), and
when every strategy fails the result is the empty sequence, not an
error. -/
theorem claim_C6_amended :
    ∀ t : DomTable,
      collect_table_rows t
        = (ROW_SELECTORS.findSome? (fun sel =>
            if (strategyRows t sel).isEmpty then none else some (strategyRows t sel))).getD []
      ∧ ∀ r : DomRow,
          (r.tdCells = [] →
            collect_row r = if r.ariaCells = [] then none else some (r.ariaCells.map strip))
          ∧ (r.tdCells ≠ [] → collect_row r = some (r.tdCells.map strip)) := by
  intro t
  refine ⟨collectGo_eq t ROW_SELECTORS, ?_⟩
  intro r
  constructor
  · intro htd
    by_cases ha : r.ariaCells = []
    · simp [collect_row, htd, ha]
    · have : r.ariaCells.length ≠ 0 := by simpa [List.length_eq_zero] using ha
      simp [collect_row, htd, ha, this]
  · intro htd
    have : r.tdCells.length ≠ 0 := by simpa [List.length_eq_zero] using htd
    simp [collect_row, this]

/-- Counterexample to claim C6 as stated: in exTableC6 the first strategy
has a positive row count (one row, which has no cells), so the claim
demands its — empty — extracted row set; the code instead falls through
and returns the second strategy's row. -/
theorem claim_C6_counterexample :
    (exTableC6.rowsUnder "tbody tr").length = 1
    ∧ (exTableC6.rowsUnder "tbody tr").filterMap collect_row = []
    ∧ collect_table_rows exTableC6 = [["X"]]
    ∧ collect_table_rows exTableC6 ≠ (exTableC6.rowsUnder "tbody tr").filterMap collect_row := by
  refine ⟨rfl, rfl, by decide, by decide⟩

/-! ## Formatting lemmas shared by claims C10 and C5 -/

theorem roundHalfEven_intCast (z : ℤ) : roundHalfEven ((z : ℚ)) = z := by
  unfold roundHalfEven
  rw [Int.floor_intCast]
  norm_num

theorem format_currency_threshold : format_currency POSITION_VALUE_THRESHOLD = "$50,000.00" := by
  have h : roundHalfEven (POSITION_VALUE_THRESHOLD * 10 ^ 2) = 5000000 := by
    rw [show (POSITION_VALUE_THRESHOLD * 10 ^ 2 : ℚ) = ((5000000 : ℤ) : ℚ) by
      rw [POSITION_VALUE_THRESHOLD]; norm_num]
    exact roundHalfEven_intCast 5000000
  simp only [format_currency, h]
  decide

/-! ## Claim C10: the fixed no-alert body -/

/-- Claim C10: when no position exceeds the threshold the delivered body is
the fixed string "No coin exceeds the \$50,000 position value threshold."
with a literal backslash before the dollar sign and the amount hard-coded;
it is not the string derived from the currency formatter applied to the
threshold constant. -/
theorem claim_C10 :
    main_body [] = build_no_alert_body
    ∧ build_no_alert_body.toList =
        ['N', 'o', ' ', 'c', 'o', 'i', 'n', ' ', 'e', 'x', 'c', 'e', 'e', 'd', 's', ' ',
         't', 'h', 'e', ' ', '\\', '$', '5', '0', ',', '0', '0', '0', ' ',
         'p', 'o', 's', 'i', 't', 'i', 'o', 'n', ' ', 'v', 'a', 'l', 'u', 'e', ' ',
         't', 'h', 'r', 'e', 's', 'h', 'o', 'l', 'd', '.']
    ∧ build_no_alert_body ≠
        "No coin exceeds the " ++ format_currency POSITION_VALUE_THRESHOLD
          ++ " position value threshold." := by
  refine ⟨rfl, by decide, ?_⟩
  rw [format_currency_threshold]
  decide

/-! ## Retry/Wait Controller lemmas (claim C4) -/

theorem probe_rows_pos (tbl : ProbeTable) :
    ∀ (sels : List String) (e : Option String),
      (∃ s ∈ sels, ∃ n, tbl.count s = Except.ok n ∧ 0 < n) →
      (probe_rows tbl sels e).2 = true := by
  intro sels
  induction sels with
  | nil => rintro e ⟨s, hs, _⟩; cases hs
  | cons sel rest ih =>
      rintro e ⟨s, hs, n, hcount, hn⟩
      rcases List.mem_cons.mp hs with hhead | htail
      · subst hhead
        rw [probe_rows, hcount]
        simp [hn]
      · rw [probe_rows]
        rcases hc : tbl.count sel with exc | m
        · exact ih (some exc) ⟨s, htail, n, hcount, hn⟩
        · by_cases hm : 0 < m
          · simp [hm]
          · simp only [hm, if_false]
            exact ih e ⟨s, htail, n, hcount, hn⟩

theorem probe_rows_zeros (tbl : ProbeTable) :
    ∀ (sels : List String) (e : Option String),
      (∀ s ∈ sels, tbl.count s = Except.ok 0) →
      probe_rows tbl sels e = (e, false) := by
  intro sels
  induction sels with
  | nil => intro e _; rfl
  | cons sel rest ih =>
      intro e h
      rw [probe_rows, h sel (List.mem_cons_self sel rest)]
      simp only [lt_self_iff_false, if_false]
      exact ih e (fun s hs => h s (List.mem_cons_of_mem sel hs))

theorem probe_rows_never (tbl : ProbeTable)
    (h : ∀ s ∈ ROW_SELECTORS, ∀ n, tbl.count s = Except.ok n → n = 0) :
    ∀ (sels : List String) (e : Option String), (∀ s ∈ sels, s ∈ ROW_SELECTORS) →
      ∃ e', probe_rows tbl sels e = (e', false) := by
  intro sels
  induction sels with
  | nil => intro e _; exact ⟨e, rfl⟩
  | cons sel rest ih =>
      intro e hsub
      rw [probe_rows]
      rcases hc : tbl.count sel with exc | m
      · exact ih (some exc) (fun s hs => hsub s (List.mem_cons_of_mem sel hs))
      · have hm : m = 0 := h sel (hsub sel (List.mem_cons_self sel rest)) m hc
        subst hm
        simp only [lt_self_iff_false, if_false]
        exact ih e (fun s hs => hsub s (List.mem_cons_of_mem sel hs))

theorem wait_loop_success (env : ℕ → Option ProbeTable) (tN : ProbeTable)
    (hpos : ∃ s ∈ ROW_SELECTORS, ∃ n, tN.count s = Except.ok n ∧ 0 < n) :
    ∀ (m t a : ℕ) (e : Option String),
      t + m * ROW_POLL_INTERVAL_MS < TABLE_WAIT_SECONDS * 1000 →
      (∀ j < m, ∃ tk, env (a + j) = some tk ∧ ∀ s ∈ ROW_SELECTORS, tk.count s = Except.ok 0) →
      env (a + m) = some tN →
      wait_loop env t a e = Except.ok (tN, a + m) := by
  intro m
  induction m with
  | zero =>
      intro t a e ht _ hN
      rw [wait_loop, if_pos (by omega)]
      rw [show a + 0 = a from rfl] at hN
      have h2 : (probe_rows tN ROW_SELECTORS e).2 = true :=
        probe_rows_pos tN ROW_SELECTORS e hpos
      simp only [hN, h2, if_true]
      rfl
  | succ m ih =>
      intro t a e ht hzero hN
      rw [wait_loop, if_pos (by omega)]
      rcases hzero 0 (Nat.succ_pos m) with ⟨t0, ht0, hz0⟩
      rw [show a + 0 = a from rfl] at ht0
      simp only [ht0, probe_rows_zeros t0 ROW_SELECTORS e hz0, if_false]
      have harith : t + ROW_POLL_INTERVAL_MS + m * ROW_POLL_INTERVAL_MS
          < TABLE_WAIT_SECONDS * 1000 := by
        simp only [TABLE_WAIT_SECONDS, ROW_POLL_INTERVAL_MS] at ht ⊢
        omega
      have hshift : ∀ j < m, ∃ tk, env (a + 1 + j) = some tk
          ∧ ∀ s ∈ ROW_SELECTORS, tk.count s = Except.ok 0 := by
        intro j hj
        have := hzero (j + 1) (by omega)
        rwa [show a + (j + 1) = a + 1 + j by omega] at this
      have hN' : env (a + 1 + m) = some tN := by
        rwa [show a + (m + 1) = a + 1 + m by omega] at hN
      rw [ih (t + ROW_POLL_INTERVAL_MS) (a + 1) e harith hshift hN',
        show a + 1 + m = a + (m + 1) from by omega]
      simp

theorem wait_loop_timeout (env : ℕ → Option ProbeTable)
    (h : ∀ k tbl, env k = some tbl → ∀ s ∈ ROW_SELECTORS, ∀ n, tbl.count s = Except.ok n → n = 0) :
    ∀ (m t a : ℕ) (e : Option String),
      TABLE_WAIT_SECONDS * 1000 - t ≤ m →
      ∃ err, wait_loop env t a e = Except.error err := by
  intro m
  induction m with
  | zero =>
      intro t a e hm
      rw [wait_loop, if_neg (by omega)]
      exact ⟨e, rfl⟩
  | succ m ih =>
      intro t a e hm
      by_cases ht : t < TABLE_WAIT_SECONDS * 1000
      · rw [wait_loop, if_pos ht]
        rcases henv : env a with _ | tbl
        · simp only [henv]
          exact ih (t + ROW_POLL_INTERVAL_MS) (a + 1) e
            (by simp only [TABLE_WAIT_SECONDS, ROW_POLL_INTERVAL_MS] at *; omega)
        · rcases probe_rows_never tbl (h a tbl henv) ROW_SELECTORS e (fun s hs => hs) with ⟨e', hp⟩
          simp only [henv, hp, if_false]
          exact ih (t + ROW_POLL_INTERVAL_MS) (a + 1) e'
            (by simp only [TABLE_WAIT_SECONDS, ROW_POLL_INTERVAL_MS] at *; omega)
      · rw [wait_loop, if_neg ht]
        exact ⟨e, rfl⟩

/-- Claim C4: if the locator yields a table with zero rows under every
strategy on polls 1..N-1 and on poll N a table with a positive row count
under some strategy, with N·pollInterval below the time budget, the
controller returns that table on poll N without further waiting; and if
no poll ever yields a table with rows, it fails with the timeout error
(carrying the last observed internal error) instead of returning or
synthesizing an empty result. -/
theorem claim_C4 (env : ℕ → Option ProbeTable) :
    (∀ (N : ℕ) (tN : ProbeTable),
        1 ≤ N →
        N * ROW_POLL_INTERVAL_MS < TABLE_WAIT_SECONDS * 1000 →
        (∀ k, 1 ≤ k → k < N →
          ∃ tk, env k = some tk ∧ ∀ s ∈ ROW_SELECTORS, tk.count s = Except.ok 0) →
        env N = some tN →
        (∃ s ∈ ROW_SELECTORS, ∃ n, tN.count s = Except.ok n ∧ 0 < n) →
        wait_for_perp_table env = Except.ok (tN, N))
    ∧ ((∀ k tbl, env k = some tbl →
          ∀ s ∈ ROW_SELECTORS, ∀ n, tbl.count s = Except.ok n → n = 0) →
        ∃ err, wait_for_perp_table env = Except.error err) := by
  constructor
  · intro N tN hN hbudget hzero henvN hpos
    have hz : ∀ j < N - 1, ∃ tk, env (1 + j) = some tk
        ∧ ∀ s ∈ ROW_SELECTORS, tk.count s = Except.ok 0 := by
      intro j hj
      exact hzero (1 + j) (by omega) (by omega)
    have hN' : env (1 + (N - 1)) = some tN := by
      rwa [show 1 + (N - 1) = N by omega]
    have := wait_loop_success env tN hpos (N - 1) 0 1 none
      (by
        have : (N - 1) * ROW_POLL_INTERVAL_MS ≤ N * ROW_POLL_INTERVAL_MS :=
          Nat.mul_le_mul_right _ (by omega)
        omega)
      hz hN'
    rw [wait_for_perp_table, this]
    congr 2
    omega
  · intro hnever
    exact wait_loop_timeout env hnever (TABLE_WAIT_SECONDS * 1000) 0 1 none (by omega)

/-- Witness for claim C4: with envLateRows the first poll sees an empty
table and the second a populated one, so the controller succeeds on poll
2; with envNeverRows every poll sees an empty table, so it times out. -/
theorem claim_C4_witness :
    wait_for_perp_table envLateRows = Except.ok (posTable, 2)
    ∧ ∃ err, wait_for_perp_table envNeverRows = Except.error err := by
  constructor
  · refine (claim_C4 envLateRows).1 2 posTable (by omega) (by decide) ?_ rfl ?_
    · intro k hk1 hk2
      have : k = 1 := by omega
      subst this
      exact ⟨zeroTable, rfl, fun s _ => rfl⟩
    · exact ⟨"tr", by decide, 3, rfl, by omega⟩
  · refine (claim_C4 envNeverRows).2 ?_
    intro k tbl htbl s _ n hn
    have h1 : tbl = zeroTable := by
      simpa [envNeverRows] using htbl.symm
    subst h1
    have : (Except.ok 0 : Except String ℕ) = Except.ok n := by
      rw [← hn]; rfl
    cases this
    rfl

/-! ## Numeric Text Parser lemmas (claim C1) -/

theorem takeWhile_all_of_digits (ds : List Char) (h : ∀ c ∈ ds, Char.isDigit c = true) :
    ds.takeWhile Char.isDigit = ds := by
  induction ds with
  | nil => rfl
  | cons c cs ih =>
      rw [List.takeWhile_cons, h c (List.mem_cons_self c cs),
        ih (fun x hx => h x (List.mem_cons_of_mem c hx))]
      simp

theorem dropWhile_all_of_digits (ds : List Char) (h : ∀ c ∈ ds, Char.isDigit c = true) :
    ds.dropWhile Char.isDigit = [] := by
  induction ds with
  | nil => rfl
  | cons c cs ih =>
      rw [List.dropWhile_cons, h c (List.mem_cons_self c cs)]
      simp only [if_true]
      exact ih (fun x hx => h x (List.mem_cons_of_mem c hx))

theorem takeWhile_append_not (xs : List Char) (y : Char) (ys : List Char)
    (hall : ∀ c ∈ xs, Char.isDigit c = true) (hy : Char.isDigit y = false) :
    (xs ++ y :: ys).takeWhile Char.isDigit = xs := by
  induction xs with
  | nil => simp [List.takeWhile_cons, hy]
  | cons c cs ih =>
      rw [List.cons_append, List.takeWhile_cons, hall c (List.mem_cons_self c cs),
        ih (fun x hx => hall x (List.mem_cons_of_mem c hx))]
      simp

theorem dropWhile_append_not (xs : List Char) (y : Char) (ys : List Char)
    (hall : ∀ c ∈ xs, Char.isDigit c = true) (hy : Char.isDigit y = false) :
    (xs ++ y :: ys).dropWhile Char.isDigit = y :: ys := by
  induction xs with
  | nil => simp [List.dropWhile_cons, hy]
  | cons c cs ih =>
      rw [List.cons_append, List.dropWhile_cons, hall c (List.mem_cons_self c cs)]
      simp only [if_true]
      exact ih (fun x hx => hall x (List.mem_cons_of_mem c hx))

theorem prefix_takeWhile (p : List Char) (l : List Char)
    (hall : ∀ c ∈ p, Char.isDigit c = true) (hp : p <+: l) :
    p <+: l.takeWhile Char.isDigit := by
  induction p generalizing l with
  | nil => exact List.nil_prefix
  | cons c cs ih =>
      rcases hp with ⟨t, ht⟩
      subst ht
      rw [List.cons_append, List.takeWhile_cons, hall c (List.mem_cons_self c cs)]
      simp only [if_true]
      rw [List.cons_prefix_cons]
      exact ⟨rfl, ih (cs ++ t) (fun x hx => hall x (List.mem_cons_of_mem c hx)) ⟨t, rfl⟩⟩

theorem dash_not_digit : Char.isDigit '-' = false := by decide

theorem dot_not_digit : Char.isDigit '.' = false := by decide

theorem unsignedShapeB_nofrac (ds : List Char) (hds0 : ds ≠ [])
    (hds : ∀ c ∈ ds, Char.isDigit c = true) :
    unsignedShapeB ds = true := by
  unfold unsignedShapeB
  rw [dropWhile_all_of_digits ds hds, takeWhile_all_of_digits ds hds]
  simpa using hds0

theorem unsignedShapeB_frac (ds fs : List Char) (hds0 : ds ≠ [])
    (hds : ∀ c ∈ ds, Char.isDigit c = true)
    (hfs0 : fs ≠ []) (hfs : ∀ c ∈ fs, Char.isDigit c = true) :
    unsignedShapeB (ds ++ '.' :: fs) = true := by
  unfold unsignedShapeB
  rw [dropWhile_append_not ds '.' fs hds dot_not_digit,
    takeWhile_append_not ds '.' fs hds dot_not_digit]
  simp [hds0, hfs0, List.all_eq_true]
  exact hfs

theorem unsignedShapeB_elim (u : List Char) (h : unsignedShapeB u = true) :
    u.takeWhile Char.isDigit ≠ []
    ∧ (u.dropWhile Char.isDigit = []
       ∨ ∃ fs, u.dropWhile Char.isDigit = '.' :: fs ∧ fs ≠ []
           ∧ ∀ c ∈ fs, Char.isDigit c = true) := by
  unfold unsignedShapeB at h
  rcases hd : u.dropWhile Char.isDigit with _ | ⟨c, fs⟩ <;> rw [hd] at h
  · refine ⟨?_, Or.inl rfl⟩
    simpa [List.isEmpty_iff] using h
  · simp only [Bool.and_eq_true, beq_iff_eq, Bool.not_eq_true', List.isEmpty_eq_false,
      List.all_eq_true] at h
    obtain ⟨⟨⟨h1, h2⟩, h3⟩, h4⟩ := h
    subst h2
    exact ⟨by simpa [List.isEmpty_iff] using h1, Or.inr ⟨fs, rfl, h3, h4⟩⟩

theorem numShapeB_cons_dash (rest : List Char) :
    numShapeB ('-' :: rest) = unsignedShapeB rest := by
  simp [numShapeB]

theorem numShapeB_not_dash (c : Char) (rest : List Char) (hc : c ≠ '-') :
    numShapeB (c :: rest) = unsignedShapeB (c :: rest) := by
  simp [numShapeB, hc]

theorem unsignedShapeB_head_digit (u : List Char) (h : unsignedShapeB u = true) :
    ∃ c cs, u = c :: cs ∧ Char.isDigit c = true := by
  obtain ⟨htw, _⟩ := unsignedShapeB_elim u h
  rcases hu : u with _ | ⟨c, cs⟩
  · subst hu; simp at htw
  · refine ⟨c, cs, rfl, ?_⟩
    subst hu
    by_contra hnd
    rw [List.takeWhile_cons] at htw
    simp only [Bool.not_eq_true] at hnd
    rw [hnd] at htw
    simp at htw

theorem numShapeB_has_digit (m : List Char) (h : numShapeB m = true) :
    ∃ c ∈ m, Char.isDigit c = true := by
  rcases m with _ | ⟨c, rest⟩
  · simp [numShapeB] at h
  · by_cases hc : c = '-'
    · subst hc
      rw [numShapeB_cons_dash] at h
      obtain ⟨d, ds, hrest, hdig⟩ := unsignedShapeB_head_digit rest h
      exact ⟨d, by simp [hrest], hdig⟩
    · rw [numShapeB_not_dash c rest hc] at h
      obtain ⟨d, ds, hu, hdig⟩ := unsignedShapeB_head_digit (c :: rest) h
      exact ⟨d, by simp [hu], hdig⟩

theorem digit_ne_dash (c : Char) (h : Char.isDigit c = true) : c ≠ '-' := by
  intro he
  subst he
  rw [dash_not_digit] at h
  cases h

theorem matchFrac_spec (rest : List Char) :
    matchFrac rest = []
    ∨ ∃ rs, rest = '.' :: rs ∧ rs.takeWhile Char.isDigit ≠ []
        ∧ matchFrac rest = '.' :: rs.takeWhile Char.isDigit := by
  rcases rest with _ | ⟨c, rs⟩
  · exact Or.inl rfl
  · by_cases hc : c = '.'
    · subst hc
      by_cases hfs : (rs.takeWhile Char.isDigit).isEmpty = true
      · exact Or.inl (by simp [matchFrac, hfs])
      · refine Or.inr ⟨rs, rfl, by simpa [List.isEmpty_iff] using hfs, ?_⟩
        simp [matchFrac, hfs]
    · exact Or.inl (by simp [matchFrac, hc])

theorem matchFrac_dot (rs : List Char) (hne : rs.takeWhile Char.isDigit ≠ []) :
    matchFrac ('.' :: rs) = '.' :: rs.takeWhile Char.isDigit := by
  have : (rs.takeWhile Char.isDigit).isEmpty = false := by
    simpa [List.isEmpty_iff] using hne
  simp [matchFrac, this]

theorem umatch_shape (l : List Char) (hne : l.takeWhile Char.isDigit ≠ []) :
    unsignedShapeB (l.takeWhile Char.isDigit ++ matchFrac (l.dropWhile Char.isDigit)) = true := by
  have hds : ∀ c ∈ l.takeWhile Char.isDigit, Char.isDigit c = true :=
    fun c hc => List.mem_takeWhile_imp hc
  rcases matchFrac_spec (l.dropWhile Char.isDigit) with hmf | ⟨rs, _, hrs, hmf⟩
  · rw [hmf, List.append_nil]
    exact unsignedShapeB_nofrac _ hne hds
  · rw [hmf]
    exact unsignedShapeB_frac _ _ hne hds hrs
      (fun c hc => List.mem_takeWhile_imp hc)

theorem umatch_isPre (l : List Char) :
    (l.takeWhile Char.isDigit ++ matchFrac (l.dropWhile Char.isDigit)) <+: l := by
  rcases matchFrac_spec (l.dropWhile Char.isDigit) with hmf | ⟨rs, hrest, hrs, hmf⟩
  · rw [hmf, List.append_nil]
    exact List.takeWhile_prefix _
  · rw [hmf]
    have hl : l.takeWhile Char.isDigit ++ '.' :: rs = l := by
      rw [← hrest]
      exact List.takeWhile_append_dropWhile _ _
    rcases ( List.takeWhile_prefix Char.isDigit : rs.takeWhile Char.isDigit <+: rs) with ⟨t, ht⟩
    refine ⟨t, ?_⟩
    rw [List.append_assoc, List.cons_append, ht]
    exact hl

theorem umatch_max (l : List Char) (u : List Char)
    (hu : unsignedShapeB u = true) (hpre : u <+: l) :
    u.length ≤ (l.takeWhile Char.isDigit ++ matchFrac (l.dropWhile Char.isDigit)).length := by
  obtain ⟨hus, hrest⟩ := unsignedShapeB_elim u hu
  have husall : ∀ c ∈ u.takeWhile Char.isDigit, Char.isDigit c = true :=
    fun c hc => List.mem_takeWhile_imp hc
  have hu_eq : u.takeWhile Char.isDigit ++ u.dropWhile Char.isDigit = u :=
    List.takeWhile_append_dropWhile _ _
  have hus_pre : u.takeWhile Char.isDigit <+: l.takeWhile Char.isDigit :=
    prefix_takeWhile _ l husall (( List.takeWhile_prefix _).trans hpre)
  rcases hrest with hrest | ⟨ufs, hrest, hufs0, hufsall⟩
  · conv_lhs => rw [← hu_eq, hrest, List.append_nil]
    exact le_trans hus_pre.length_le (by rw [List.length_append]; omega)
  · -- fractional case: the digit run of u must exhaust the digit run of l
    rcases hus_pre with ⟨ds1, hds1⟩
    rcases hpre with ⟨t, ht⟩
    have hl : l.takeWhile Char.isDigit ++ l.dropWhile Char.isDigit = l :=
      List.takeWhile_append_dropWhile _ _
    have hsplit : u.takeWhile Char.isDigit ++ ('.' :: (ufs ++ t))
        = u.takeWhile Char.isDigit ++ (ds1 ++ l.dropWhile Char.isDigit) := by
      calc u.takeWhile Char.isDigit ++ ('.' :: (ufs ++ t))
          = (u.takeWhile Char.isDigit ++ '.' :: ufs) ++ t := by
            simp [List.append_assoc]
        _ = u ++ t := by rw [← hrest, hu_eq]
        _ = l := ht
        _ = (u.takeWhile Char.isDigit ++ ds1) ++ l.dropWhile Char.isDigit := by
            rw [hds1, hl]
        _ = u.takeWhile Char.isDigit ++ (ds1 ++ l.dropWhile Char.isDigit) := by
            rw [List.append_assoc]
    have hcancel : '.' :: (ufs ++ t) = ds1 ++ l.dropWhile Char.isDigit :=
      List.append_cancel_left hsplit
    have hds1_nil : ds1 = [] := by
      rcases ds1 with _ | ⟨d, ds1t⟩
      · rfl
      · exfalso
        rw [List.cons_append] at hcancel
        injection hcancel with hd1 _
        have hd_mem : d ∈ l.takeWhile Char.isDigit := by
          rw [← hds1]
          exact List.mem_append_right _ (List.mem_cons_self d ds1t)
        have hd_digit := List.mem_takeWhile_imp hd_mem
        rw [← hd1, dot_not_digit] at hd_digit
        cases hd_digit
    subst hds1_nil
    rw [List.append_nil] at hds1
    rw [List.nil_append] at hcancel
    have hfs_pre : ufs <+: (ufs ++ t).takeWhile Char.isDigit :=
      prefix_takeWhile _ _ hufsall ⟨t, rfl⟩
    have hfs_ne : (ufs ++ t).takeWhile Char.isDigit ≠ [] := by
      intro hnil
      rw [hnil, List.prefix_nil] at hfs_pre
      exact hufs0 hfs_pre
    have hmf : matchFrac (l.dropWhile Char.isDigit)
        = '.' :: (ufs ++ t).takeWhile Char.isDigit := by
      rw [← hcancel]
      exact matchFrac_dot _ hfs_ne
    have hulen : u.length
        = (u.takeWhile Char.isDigit).length + 1 + ufs.length := by
      conv_lhs => rw [← hu_eq, hrest]
      rw [List.length_append, List.length_cons]
      omega
    rw [hmf, hulen, List.length_append, List.length_cons, hds1]
    have := hfs_pre.length_le
    omega

theorem takeWhile_ne_nil_head (l : List Char) (h : l.takeWhile Char.isDigit ≠ []) :
    ∃ c cs, l = c :: cs ∧ Char.isDigit c = true := by
  rcases l with _ | ⟨c, cs⟩
  · simp at h
  · refine ⟨c, cs, rfl, ?_⟩
    by_contra hnd
    simp only [Bool.not_eq_true] at hnd
    rw [List.takeWhile_cons, hnd] at h
    simp at h

theorem matchNumAt_none (l : List Char) (h : matchNumAt l = none) :
    ∀ m, numShapeB m = true → ¬ m <+: l := by
  intro m hm hpre
  rcases l with _ | ⟨c, rest⟩
  · rw [List.prefix_nil] at hpre
    subst hpre
    simp [numShapeB] at hm
  · by_cases hc : c = '-'
    · subst hc
      rw [show matchNumAt ('-' :: rest)
            = if (rest.takeWhile Char.isDigit).isEmpty = true then none
              else some ('-' :: (rest.takeWhile Char.isDigit
                ++ matchFrac (rest.dropWhile Char.isDigit))) from rfl] at h
      have hds : rest.takeWhile Char.isDigit = [] := by
        by_cases hemp : (rest.takeWhile Char.isDigit).isEmpty = true
        · simpa [List.isEmpty_iff] using hemp
        · rw [if_neg (by simp [hemp])] at h
          cases h
      rcases m with _ | ⟨x, m'⟩
      · simp [numShapeB] at hm
      · rw [List.cons_prefix_cons] at hpre
        obtain ⟨hx, hpre'⟩ := hpre
        subst hx
        rw [numShapeB_cons_dash] at hm
        obtain ⟨d, ds', hm', hd⟩ := unsignedShapeB_head_digit m' hm
        subst hm'
        rcases hpre' with ⟨t, ht⟩
        rw [List.cons_append] at ht
        rw [← ht, List.takeWhile_cons, hd] at hds
        simp at hds
    · rw [matchNumAt] at h
      rw [if_neg hc] at h
      have hds : (c :: rest).takeWhile Char.isDigit = [] := by
        by_cases hemp : ((c :: rest).takeWhile Char.isDigit).isEmpty = true
        · simpa [List.isEmpty_iff] using hemp
        · rw [if_neg (by simp [hemp])] at h
          cases h
      have hcd : Char.isDigit c = false := by
        by_contra hcd
        simp only [Bool.not_eq_false] at hcd
        rw [List.takeWhile_cons, hcd] at hds
        simp at hds
      rcases m with _ | ⟨x, m'⟩
      · simp [numShapeB] at hm
      · rw [List.cons_prefix_cons] at hpre
        obtain ⟨hx, _⟩ := hpre
        subst hx
        rw [numShapeB_not_dash x m' hc] at hm
        obtain ⟨d, ds', hm', hd⟩ := unsignedShapeB_head_digit (x :: m') hm
        have : x = d := by
          have := hm'
          injection this with h1 _
        rw [this, hd] at hcd
        cases hcd

theorem matchNumAt_some (l m : List Char) (h : matchNumAt l = some m) :
    numShapeB m = true ∧ m <+: l
      ∧ ∀ m', numShapeB m' = true → m' <+: l → m'.length ≤ m.length := by
  rcases l with _ | ⟨c, rest⟩
  · cases h
  · by_cases hc : c = '-'
    · subst hc
      rw [show matchNumAt ('-' :: rest)
            = if (rest.takeWhile Char.isDigit).isEmpty = true then none
              else some ('-' :: (rest.takeWhile Char.isDigit
                ++ matchFrac (rest.dropWhile Char.isDigit))) from rfl] at h
      by_cases hemp : (rest.takeWhile Char.isDigit).isEmpty = true
      · rw [if_pos hemp] at h
        cases h
      · rw [if_neg hemp] at h
        injection h with h
        subst h
        have hne : rest.takeWhile Char.isDigit ≠ [] := by
          simpa [List.isEmpty_iff] using hemp
        refine ⟨?_, ?_, ?_⟩
        · rw [numShapeB_cons_dash]
          exact umatch_shape rest hne
        · rw [List.cons_prefix_cons]
          exact ⟨rfl, umatch_isPre rest⟩
        · intro m' hm' hpre'
          rcases m' with _ | ⟨x, m''⟩
          · simp [numShapeB] at hm'
          · rw [List.cons_prefix_cons] at hpre'
            obtain ⟨hx, hpre''⟩ := hpre'
            subst hx
            rw [numShapeB_cons_dash] at hm'
            simp only [List.length_cons]
            exact Nat.succ_le_succ (umatch_max rest m'' hm' hpre'')
    · rw [matchNumAt] at h
      rw [if_neg hc] at h
      by_cases hemp : ((c :: rest).takeWhile Char.isDigit).isEmpty = true
      · rw [if_pos hemp] at h
        cases h
      · rw [if_neg hemp] at h
        injection h with h
        subst h
        have hne : (c :: rest).takeWhile Char.isDigit ≠ [] := by
          simpa [List.isEmpty_iff] using hemp
        have hshape := umatch_shape (c :: rest) hne
        refine ⟨?_, umatch_isPre (c :: rest), ?_⟩
        · obtain ⟨d, ds', hu, hd⟩ := unsignedShapeB_head_digit _ hshape
          rw [hu]
          rw [numShapeB_not_dash d ds' (digit_ne_dash d hd)]
          rw [← hu]
          exact hshape
        · intro m' hm' hpre'
          obtain ⟨d, cs', hl', hd⟩ := takeWhile_ne_nil_head (c :: rest) hne
          have hcd : Char.isDigit c = true := by
            have : c = d := by injection hl' with h1 _
            rw [this]
            exact hd
          rcases m' with _ | ⟨x, m''⟩
          · simp [numShapeB] at hm'
          · have hx : x = c := by
              rw [List.cons_prefix_cons] at hpre'
              exact hpre'.1
            subst hx
            rw [numShapeB_not_dash x m'' (digit_ne_dash x hcd)] at hm'
            exact umatch_max (x :: rest) (x :: m'') hm' hpre'

theorem searchNum_some (s m : List Char) (h : searchNum s = some m) : IsFirstMatch s m := by
  induction s with
  | nil => cases h
  | cons c rest ih =>
      rw [searchNum] at h
      rcases hmatch : matchNumAt (c :: rest) with _ | m0 <;> rw [hmatch] at h
      · -- no match at this position: shift the first match of the tail
        obtain ⟨i, ⟨hshape, hpre⟩, hleft, hlong⟩ := ih h
        refine ⟨i + 1, ⟨hshape, by rwa [List.drop_succ_cons]⟩, ?_, ?_⟩
        · intro j m' hj hm'
          rcases j with _ | j'
          · obtain ⟨hshape', hpre'⟩ := hm'
            rw [List.drop_zero] at hpre'
            exact matchNumAt_none _ hmatch m' hshape' hpre'
          · obtain ⟨hshape', hpre'⟩ := hm'
            rw [List.drop_succ_cons] at hpre'
            exact hleft j' m' (by omega) ⟨hshape', hpre'⟩
        · intro m' hm'
          obtain ⟨hshape', hpre'⟩ := hm'
          rw [List.drop_succ_cons] at hpre'
          exact hlong m' ⟨hshape', hpre'⟩
      · injection h with h
        subst h
        obtain ⟨hshape, hpre, hmax⟩ := matchNumAt_some _ _ hmatch
        refine ⟨0, ⟨hshape, by rwa [List.drop_zero]⟩, by omega, ?_⟩
        intro m' hm'
        obtain ⟨hshape', hpre'⟩ := hm'
        rw [List.drop_zero] at hpre'
        exact hmax m' hshape' hpre'

theorem searchNum_none (s : List Char) (h : searchNum s = none) :
    ∀ i m, ¬ MatchAt s i m := by
  induction s with
  | nil =>
      intro i m hm
      obtain ⟨hshape, hpre⟩ := hm
      rw [List.drop_nil, List.prefix_nil] at hpre
      subst hpre
      simp [numShapeB] at hshape
  | cons c rest ih =>
      rw [searchNum] at h
      rcases hmatch : matchNumAt (c :: rest) with _ | m0 <;> rw [hmatch] at h
      · intro i m hm
        obtain ⟨hshape, hpre⟩ := hm
        rcases i with _ | i'
        · rw [List.drop_zero] at hpre
          exact matchNumAt_none _ hmatch m hshape hpre
        · rw [List.drop_succ_cons] at hpre
          exact ih h i' m ⟨hshape, hpre⟩
      · cases h

theorem isFirstMatch_unique (s m1 m2 : List Char)
    (h1 : IsFirstMatch s m1) (h2 : IsFirstMatch s m2) : m1 = m2 := by
  obtain ⟨i1, hm1, hl1, hg1⟩ := h1
  obtain ⟨i2, hm2, hl2, hg2⟩ := h2
  have hi : i1 = i2 := by
    rcases Nat.lt_trichotomy i1 i2 with h | h | h
    · exact absurd hm1 (hl2 i1 m1 h)
    · exact h
    · exact absurd hm2 (hl1 i2 m2 h)
  subst hi
  have hle1 : m1.length ≤ m2.length := hg2 m1 hm1
  have hle2 : m2.length ≤ m1.length := hg1 m2 hm2
  have hpre12 : m1 <+: m2 :=
    List.prefix_of_prefix_length_le hm1.2 hm2.2 hle1
  exact hpre12.eq_of_length (by omega)

theorem pyDecimalUnsigned_isSome (u : List Char) (h : unsignedShapeB u = true) :
    (pyDecimalUnsigned u).isSome = true := by
  obtain ⟨hus, hrest⟩ := unsignedShapeB_elim u h
  rcases hrest with hrest | ⟨fs, hrest, hfs0, hfsall⟩
  · simp only [pyDecimalUnsigned, hrest]
    rw [if_neg (fun hemp => hus (List.isEmpty_iff.mp hemp))]
    rfl
  · simp only [pyDecimalUnsigned, hrest]
    have hall : fs.all Char.isDigit = true := by
      rw [List.all_eq_true]
      intro x hx
      simpa using hfsall x hx
    have hne : ¬(((u.takeWhile Char.isDigit).isEmpty = true) ∧ fs.isEmpty = true) := by
      rintro ⟨-, hfe⟩
      exact hfs0 (List.isEmpty_iff.mp hfe)
    rw [if_pos ⟨trivial, hall, hne⟩]
    rfl

theorem pyDecimal_isSome (m : List Char) (h : numShapeB m = true) :
    (pyDecimal m).isSome = true := by
  rcases m with _ | ⟨c, rest⟩
  · simp [numShapeB] at h
  · by_cases hc : c = '-'
    · subst hc
      rw [numShapeB_cons_dash] at h
      rw [show pyDecimal ('-' :: rest) = (pyDecimalUnsigned rest).map (fun q => -q) from rfl]
      have hsome := pyDecimalUnsigned_isSome rest h
      rcases hx : pyDecimalUnsigned rest with _ | q
      · rw [hx] at hsome
        cases hsome
      · rfl
    · rw [numShapeB_not_dash c rest hc] at h
      rw [pyDecimal]
      rw [if_neg hc]
      exact pyDecimalUnsigned_isSome (c :: rest) h

/-- Claim C1: the parser returns the Decimal value of the first substring
of the sanitized text matching an optional minus sign, digits, and an
optional decimal point with more digits; when no such substring exists or
the input is absent it returns absent; it never raises (it is a total
function) and any value it returns is the exact value of an actual
matched substring, never a substituted zero; "$12,345.50 USD" parses to
12345.50 and "N/A" to absent. -/
theorem claim_C1 :
    parse_decimal_from_text none = none
    ∧ (∀ s : String, (∀ i m, ¬ MatchAt (sanitizeChars s) i m) →
        parse_decimal_from_text (some s) = none)
    ∧ (∀ (s : String) (m : List Char), IsFirstMatch (sanitizeChars s) m →
        parse_decimal_from_text (some s) = pyDecimal m ∧ (pyDecimal m).isSome = true)
    ∧ (∀ (s : String) (q : ℚ), parse_decimal_from_text (some s) = some q →
        ∃ i m, MatchAt (sanitizeChars s) i m ∧ pyDecimal m = some q)
    ∧ parse_decimal_from_text (some "$12,345.50 USD") = some (12345.5 : ℚ)
    ∧ parse_decimal_from_text (some "N/A") = none := by
  refine ⟨rfl, ?_, ?_, ?_, ?_, by decide⟩
  · intro s hno
    rcases hs : searchNum (sanitizeChars s) with _ | m
    · simp [parse_decimal_from_text, hs]
    · obtain ⟨i, hm, -, -⟩ := searchNum_some _ _ hs
      exact absurd hm (hno i m)
  · intro s m hf
    rcases hs : searchNum (sanitizeChars s) with _ | m2
    · obtain ⟨i, hm, -, -⟩ := hf
      exact absurd hm (searchNum_none _ hs i m)
    · have hf2 := searchNum_some _ _ hs
      have : m2 = m := isFirstMatch_unique _ _ _ hf2 hf
      subst this
      obtain ⟨i, ⟨hshape, -⟩, -, -⟩ := hf
      exact ⟨by simp [parse_decimal_from_text, hs], pyDecimal_isSome m2 hshape⟩
  · intro s q hq
    rcases hs : searchNum (sanitizeChars s) with _ | m
    · simp [parse_decimal_from_text, hs] at hq
    · obtain ⟨i, hm, -, -⟩ := searchNum_some _ _ hs
      refine ⟨i, m, hm, ?_⟩
      simpa [parse_decimal_from_text, hs] using hq
  · have hs : searchNum (sanitizeChars "$12,345.50 USD") = some "12345.50".toList := by
      decide
    simp only [parse_decimal_from_text, hs]
    rw [show pyDecimal "12345.50".toList
        = some (((12345 : ℕ) : ℚ) + ((50 : ℕ) : ℚ) / (10 : ℚ) ^ (2 : ℕ)) from rfl]
    norm_num

theorem noMatch_of_noDigit (s : List Char) (hnd : ∀ c ∈ s, Char.isDigit c = false) :
    ∀ i m, ¬ MatchAt s i m := by
  intro i m hm
  obtain ⟨hshape, hpre⟩ := hm
  obtain ⟨c, hc, hcdig⟩ := numShapeB_has_digit m hshape
  have hcs : c ∈ s := List.mem_of_mem_drop (hpre.subset hc)
  rw [hnd c hcs] at hcdig
  cases hcdig

theorem longest_of_bounded (s : List Char) (i L : ℕ)
    (h : ∀ k, k ≤ (s.drop i).length → numShapeB ((s.drop i).take k) = true → k ≤ L) :
    ∀ m', MatchAt s i m' → m'.length ≤ L := by
  rintro m' ⟨hshape, hpre⟩
  have hlen : m'.length ≤ (s.drop i).length := hpre.length_le
  have heq : m' = (s.drop i).take m'.length := List.prefix_iff_eq_take.mp hpre
  exact h m'.length hlen (by rw [← heq]; exact hshape)

/-- Witness for claim C1: the no-match conjunct applied at "N/A" and the
first-match conjunct applied at "$12,345.50 USD" with its concrete first
match "12345.50". -/
theorem claim_C1_witness :
    parse_decimal_from_text (some "N/A") = none
    ∧ parse_decimal_from_text (some "$12,345.50 USD") = pyDecimal "12345.50".toList := by
  constructor
  · exact claim_C1.2.1 "N/A" (noMatch_of_noDigit _ (by decide))
  · refine (claim_C1.2.2.1 "$12,345.50 USD" "12345.50".toList
      ⟨0, ⟨by decide, by rw [List.drop_zero]; decide⟩, by omega, ?_⟩).1
    exact longest_of_bounded _ 0 8 (by decide)

/-! ## Digit rendering lemmas (claim C5) -/

theorem digitsVal_append (xs ys : List Char) :
    digitsVal (xs ++ ys)
      = List.foldl (fun a c => 10 * a + (c.toNat - 48)) (digitsVal xs) ys := by
  simp [digitsVal, List.foldl_append]

theorem digitsVal_append_singleton (xs : List Char) (c : Char) :
    digitsVal (xs ++ [c]) = 10 * digitsVal xs + (c.toNat - 48) := by
  simp [digitsVal, List.foldl_append]

theorem digitChar_toNat (d : ℕ) (hd : d < 10) : (Nat.digitChar d).toNat - 48 = d := by
  interval_cases d <;> decide

theorem digitChar_isDigit (d : ℕ) (hd : d < 10) : (Nat.digitChar d).isDigit = true := by
  interval_cases d <;> decide

theorem digit_char_ne (c : Char) (h : Char.isDigit c = true) :
    c ≠ 'U' ∧ c ≠ 'S' ∧ c ≠ 'D' ∧ c ≠ ',' ∧ c ≠ '$' ∧ c ≠ '.' ∧ c ≠ '-' := by
  refine ⟨?_, ?_, ?_, ?_, ?_, ?_, ?_⟩ <;>
    (intro he; rw [he] at h; exact absurd h (by decide))

theorem digit_not_space (c : Char) (h : Char.isDigit c = true) : isPySpace c = false := by
  rcases hsp : isPySpace c
  · rfl
  · exfalso
    have hd := hsp
    simp only [isPySpace, Bool.or_eq_true, beq_iff_eq] at hd
    rcases hd with ((((h1 | h1) | h1) | h1) | h1) | h1 <;>
      (rw [h1] at h; exact absurd h (by decide))

theorem digitsVal_rev_map (ds : List ℕ) (h : ∀ d ∈ ds, d < 10) :
    digitsVal ((ds.map Nat.digitChar).reverse) = Nat.ofDigits 10 ds := by
  induction ds with
  | nil => rfl
  | cons d ds ih =>
      rw [List.map_cons, List.reverse_cons, digitsVal_append_singleton,
        ih (fun x hx => h x (List.mem_cons_of_mem d hx)),
        digitChar_toNat d (h d (List.mem_cons_self d ds)), Nat.ofDigits_cons]
      ring

theorem natDigitsAux_eq (fuel : ℕ) :
    ∀ (n : ℕ) (acc : List Char), n ≤ fuel →
      natDigitsAux fuel n acc = ((Nat.digits 10 n).map Nat.digitChar).reverse ++ acc := by
  induction fuel with
  | zero =>
      intro n acc hn
      have : n = 0 := by omega
      subst this
      simp [natDigitsAux]
  | succ fuel ih =>
      intro n acc hn
      rw [natDigitsAux]
      by_cases h0 : n = 0
      · subst h0
        simp
      · rw [if_neg h0]
        have hdiv : n / 10 ≤ fuel := by
          have := Nat.div_lt_self (Nat.pos_of_ne_zero h0) (by norm_num : 1 < 10)
          omega
        rw [ih (n / 10) _ hdiv,
          Nat.digits_def' (by norm_num : 1 < 10) (Nat.pos_of_ne_zero h0)]
        simp [List.append_assoc]

theorem natToDigitList_val (n : ℕ) : digitsVal (natToDigitList n) = n := by
  unfold natToDigitList
  by_cases hn : n = 0
  · subst hn
    decide
  · rw [if_neg hn, natDigitsAux_eq n n [] le_rfl, List.append_nil,
      digitsVal_rev_map _ (fun d hd => Nat.digits_lt_base (by norm_num) hd),
      Nat.ofDigits_digits]

theorem natToDigitList_digits (n : ℕ) :
    ∀ c ∈ natToDigitList n, Char.isDigit c = true := by
  unfold natToDigitList
  by_cases hn : n = 0
  · rw [if_pos hn]
    intro c hc
    rw [List.mem_singleton] at hc
    subst hc
    decide
  · rw [if_neg hn, natDigitsAux_eq n n [] le_rfl, List.append_nil]
    intro c hc
    rw [List.mem_reverse, List.mem_map] at hc
    obtain ⟨d, hd, rfl⟩ := hc
    exact digitChar_isDigit d (Nat.digits_lt_base (by norm_num) hd)

theorem natToDigitList_ne_nil (n : ℕ) : natToDigitList n ≠ [] := by
  unfold natToDigitList
  by_cases hn : n = 0
  · simp [hn]
  · rw [if_neg hn, natDigitsAux_eq n n [] le_rfl, List.append_nil]
    simp [Nat.digits_ne_nil_iff_ne_zero, hn]

/-! ## Thousands-grouping lemmas (claim C5) -/

theorem group3Rev_filter : ∀ (l : List Char), (∀ c ∈ l, c ≠ ',') →
    (group3Rev l).filter (fun c => decide (c ≠ ',')) = l
  | [], _ => rfl
  | [a], h => by
      rw [show group3Rev [a] = [a] from rfl]
      simp [h a (by simp)]
  | [a, b], h => by
      rw [show group3Rev [a, b] = [a, b] from rfl]
      simp [h a (by simp), h b (by simp)]
  | [a, b, c], h => by
      rw [show group3Rev [a, b, c] = [a, b, c] from rfl]
      simp [h a (by simp), h b (by simp), h c (by simp)]
  | a :: b :: c :: d :: rest, h => by
      rw [show group3Rev (a :: b :: c :: d :: rest)
          = a :: b :: c :: ',' :: group3Rev (d :: rest) from rfl]
      rw [List.filter_cons, List.filter_cons, List.filter_cons, List.filter_cons]
      have hr := group3Rev_filter (d :: rest) (fun x hx => h x (by simp at hx ⊢; tauto))
      simp [h a (by simp), h b (by simp), h c (by simp)]
      simpa using hr

theorem group3Rev_mem (l : List Char) (hl : ∀ x ∈ l, x ≠ ',') (c : Char)
    (hc : c ∈ group3Rev l) : c ∈ l ∨ c = ',' := by
  by_cases hcc : c = ','
  · exact Or.inr hcc
  · left
    rw [← group3Rev_filter l hl]
    exact List.mem_filter.mpr ⟨hc, by simp [hcc]⟩

theorem group3Rev_head (l : List Char) : (group3Rev l).head? = l.head? := by
  rcases l with _ | ⟨a, _ | ⟨b, _ | ⟨c, _ | ⟨d, t⟩⟩⟩⟩ <;> rfl

theorem group3_reverse (ds : List Char) : (group3 ds).reverse = group3Rev ds.reverse := by
  unfold group3
  rw [List.reverse_reverse]

theorem group3_filter (ds : List Char) (h : ∀ c ∈ ds, c ≠ ',') :
    (group3 ds).filter (fun c => decide (c ≠ ',')) = ds := by
  unfold group3
  rw [List.filter_reverse, group3Rev_filter ds.reverse
    (fun x hx => h x (List.mem_reverse.mp hx)), List.reverse_reverse]

theorem group3_mem (ds : List Char) (hds : ∀ x ∈ ds, x ≠ ',') (c : Char)
    (hc : c ∈ group3 ds) : c ∈ ds ∨ c = ',' := by
  have : c ∈ group3Rev ds.reverse := by
    rw [← group3_reverse, List.mem_reverse]
    exact hc
  rcases group3Rev_mem ds.reverse (fun x hx => hds x (List.mem_reverse.mp hx)) c this with h1 | h1
  · exact Or.inl (List.mem_reverse.mp h1)
  · exact Or.inr h1

/-! ## Fractional-digit lemmas (claim C5) -/

theorem frac6Digits_expand (r : ℕ) :
    frac6Digits r
      = [Nat.digitChar (r / 100000 % 10), Nat.digitChar (r / 10000 % 10),
         Nat.digitChar (r / 1000 % 10), Nat.digitChar (r / 100 % 10),
         Nat.digitChar (r / 10 % 10), Nat.digitChar (r % 10)] := by
  simp only [frac6Digits]
  rw [show List.range 6 = [0, 1, 2, 3, 4, 5] from rfl]
  norm_num

theorem frac6Digits_val (r : ℕ) (hr : r < 1000000) : digitsVal (frac6Digits r) = r := by
  rw [frac6Digits_expand]
  simp only [digitsVal, List.foldl_cons, List.foldl_nil]
  rw [digitChar_toNat _ (Nat.mod_lt _ (by norm_num)),
    digitChar_toNat _ (Nat.mod_lt _ (by norm_num)),
    digitChar_toNat _ (Nat.mod_lt _ (by norm_num)),
    digitChar_toNat _ (Nat.mod_lt _ (by norm_num)),
    digitChar_toNat _ (Nat.mod_lt _ (by norm_num)),
    digitChar_toNat _ (Nat.mod_lt _ (by norm_num))]
  omega

theorem frac6Digits_all_digits (r : ℕ) :
    ∀ c ∈ frac6Digits r, Char.isDigit c = true := by
  intro c hc
  simp only [frac6Digits, List.mem_map, List.mem_range] at hc
  obtain ⟨i, -, rfl⟩ := hc
  exact digitChar_isDigit _ (Nat.mod_lt _ (by norm_num))

theorem frac6Digits_length (r : ℕ) : (frac6Digits r).length = 6 := by
  rw [frac6Digits_expand]
  rfl

/-! ## rstrip lemmas (claim C5) -/

theorem dropWhile_append_char (p : Char → Bool) (as : List Char) (b : Char) (bs : List Char)
    (hb : p b = false) :
    (as ++ b :: bs).dropWhile p = as.dropWhile p ++ b :: bs := by
  induction as with
  | nil => simp [List.dropWhile_cons, hb]
  | cons a as ih =>
      rw [List.cons_append, List.dropWhile_cons, List.dropWhile_cons]
      by_cases hpa : p a = true
      · simp [hpa, ih]
      · simp [hpa]

theorem rstripZeros_append_dot (xs ys : List Char) :
    rstripZeros (xs ++ '.' :: ys) = xs ++ '.' :: rstripZeros ys := by
  unfold rstripZeros
  rw [List.reverse_append, List.reverse_cons, List.append_assoc, List.singleton_append,
    dropWhile_append_char _ ys.reverse '.' xs.reverse (by decide),
    List.reverse_append, List.reverse_cons, List.reverse_reverse]
  simp

theorem rstripZeros_spec (l : List Char) :
    ∃ k, l = rstripZeros l ++ List.replicate k '0' := by
  refine ⟨(l.reverse.takeWhile (fun c => decide (c = '0'))).length, ?_⟩
  conv_lhs => rw [← List.reverse_reverse l,
    ← List.takeWhile_append_dropWhile (fun c => decide (c = '0')) l.reverse]
  rw [List.reverse_append]
  unfold rstripZeros
  congr 1
  have hall : ∀ c ∈ l.reverse.takeWhile (fun c => decide (c = '0')), c = '0' :=
    fun c hc => by simpa using List.mem_takeWhile_imp hc
  rw [List.eq_replicate_of_mem hall]
  rw [List.reverse_replicate, List.length_replicate]

theorem rstripZeros_subset (l : List Char) : ∀ c ∈ rstripZeros l, c ∈ l := by
  intro c hc
  unfold rstripZeros at hc
  rw [List.mem_reverse] at hc
  have hsub : (List.dropWhile (fun c => decide (c = '0')) l.reverse).Sublist l.reverse :=
    List.dropWhile_sublist _
  exact List.mem_reverse.mp (hsub.subset hc)

theorem rstripDots_of_last (l : List Char) (c : Char) (t : List Char)
    (hrev : l.reverse = c :: t) (hc : c ≠ '.') : rstripDots l = l := by
  unfold rstripDots
  rw [hrev, List.dropWhile_cons, if_neg (by simp [hc]), ← hrev, List.reverse_reverse]

theorem rstripDots_append_dot (X : List Char) (c : Char) (t : List Char)
    (hrev : X.reverse = c :: t) (hc : c ≠ '.') : rstripDots (X ++ ['.']) = X := by
  unfold rstripDots
  rw [List.reverse_append, show (['.'] : List Char).reverse = ['.'] from rfl,
    List.singleton_append, List.dropWhile_cons, if_pos (by simp),
    hrev, List.dropWhile_cons, if_neg (by simp [hc]), ← hrev, List.reverse_reverse]

theorem foldl_replicate_zeros (k : ℕ) (a : ℕ) :
    List.foldl (fun a c => 10 * a + (c.toNat - 48)) a (List.replicate k '0')
      = a * 10 ^ k := by
  induction k generalizing a with
  | zero => simp
  | succ k ih =>
      rw [List.replicate_succ, List.foldl_cons, ih]
      rw [show ('0'.toNat - 48) = 0 from by decide]
      ring

theorem digitsVal_append_zeros (xs : List Char) (k : ℕ) :
    digitsVal (xs ++ List.replicate k '0') = digitsVal xs * 10 ^ k := by
  rw [digitsVal_append, foldl_replicate_zeros]

/-! ## Clean-token evaluation lemmas (claim C5) -/

theorem pyDecimalUnsigned_nofrac (ds : List Char) (hds0 : ds ≠ [])
    (hds : ∀ c ∈ ds, Char.isDigit c = true) :
    pyDecimalUnsigned ds = some ((digitsVal ds : ℕ) : ℚ) := by
  simp only [pyDecimalUnsigned, takeWhile_all_of_digits ds hds,
    dropWhile_all_of_digits ds hds]
  rw [if_neg (fun hemp => hds0 (List.isEmpty_iff.mp hemp))]

theorem pyDecimalUnsigned_frac (ds fs : List Char) (hds0 : ds ≠ [])
    (hds : ∀ c ∈ ds, Char.isDigit c = true)
    (hfs0 : fs ≠ []) (hfs : ∀ c ∈ fs, Char.isDigit c = true) :
    pyDecimalUnsigned (ds ++ '.' :: fs)
      = some ((digitsVal ds : ℚ) + (digitsVal fs : ℚ) / (10 : ℚ) ^ fs.length) := by
  simp only [pyDecimalUnsigned, takeWhile_append_not ds '.' fs hds dot_not_digit,
    dropWhile_append_not ds '.' fs hds dot_not_digit]
  rw [if_pos]
  refine ⟨trivial, ?_, ?_⟩
  · rw [List.all_eq_true]
    intro x hx
    simpa using hfs x hx
  · rintro ⟨-, hfe⟩
    exact hfs0 (List.isEmpty_iff.mp hfe)

theorem umatch_full (u : List Char) (hu : unsignedShapeB u = true) :
    u.takeWhile Char.isDigit ++ matchFrac (u.dropWhile Char.isDigit) = u := by
  obtain ⟨hus, hrest⟩ := unsignedShapeB_elim u hu
  rcases hrest with hrest | ⟨fs, hrest, hfs0, hfsall⟩
  · rw [hrest, show matchFrac [] = [] from rfl, List.append_nil]
    conv_rhs => rw [← List.takeWhile_append_dropWhile Char.isDigit u, hrest, List.append_nil]
  · have htw : fs.takeWhile Char.isDigit = fs := takeWhile_all_of_digits fs hfsall
    rw [hrest, matchFrac_dot fs (by rw [htw]; exact hfs0), htw]
    conv_rhs => rw [← List.takeWhile_append_dropWhile Char.isDigit u, hrest]

theorem matchNumAt_full (m : List Char) (h : numShapeB m = true) : matchNumAt m = some m := by
  rcases m with _ | ⟨c, rest⟩
  · simp [numShapeB] at h
  · by_cases hc : c = '-'
    · subst hc
      rw [numShapeB_cons_dash] at h
      obtain ⟨hus, -⟩ := unsignedShapeB_elim rest h
      rw [show matchNumAt ('-' :: rest)
            = if (rest.takeWhile Char.isDigit).isEmpty = true then none
              else some ('-' :: (rest.takeWhile Char.isDigit
                ++ matchFrac (rest.dropWhile Char.isDigit))) from rfl]
      rw [if_neg (fun hemp => hus (List.isEmpty_iff.mp hemp))]
      rw [umatch_full rest h]
    · rw [numShapeB_not_dash c rest hc] at h
      obtain ⟨hus, -⟩ := unsignedShapeB_elim (c :: rest) h
      rw [matchNumAt, if_neg hc,
        if_neg (fun hemp => hus (List.isEmpty_iff.mp hemp))]
      rw [umatch_full (c :: rest) h]

theorem searchNum_full (m : List Char) (h : numShapeB m = true) : searchNum m = some m := by
  rcases m with _ | ⟨c, rest⟩
  · simp [numShapeB] at h
  · rw [searchNum, matchNumAt_full _ h]

/-! ## Sanitization of formatter output (claim C5) -/

theorem dropWhile_false_id (p : Char → Bool) (l : List Char)
    (h : ∀ c ∈ l, p c = false) : l.dropWhile p = l := by
  rcases l with _ | ⟨c, rest⟩
  · rfl
  · rw [List.dropWhile_cons, h c (List.mem_cons_self c rest)]
    simp

theorem pythonStrip_id (l : List Char) (h : ∀ c ∈ l, isPySpace c = false) :
    pythonStrip l = l := by
  unfold pythonStrip
  rw [dropWhile_false_id _ l h,
    dropWhile_false_id _ l.reverse (fun c hc => h c (List.mem_reverse.mp hc)),
    List.reverse_reverse]

theorem removeUSD_id : ∀ (l : List Char), (∀ c ∈ l, c ≠ 'U') → removeUSD l = l
  | [], _ => rfl
  | [c], _ => rfl
  | [c1, c2], _ => rfl
  | c1 :: c2 :: c3 :: rest, h => by
      rw [show removeUSD (c1 :: c2 :: c3 :: rest)
          = if c1 = 'U' ∧ c2 = 'S' ∧ c3 = 'D' then removeUSD rest
            else c1 :: removeUSD (c2 :: c3 :: rest) from rfl]
      rw [if_neg (fun hand => h c1 (by simp) hand.1)]
      rw [removeUSD_id (c2 :: c3 :: rest) (fun x hx => h x (by simp at hx ⊢; tauto))]

theorem pyDecimalUnsigned_wr (w r : ℕ) (hr : r < 10 ^ 6) :
    pyDecimalUnsigned (natToDigitList w
        ++ (if r = 0 then [] else '.' :: rstripZeros (frac6Digits r)))
      = some (((w : ℚ) * 10 ^ 6 + (r : ℚ)) / 10 ^ 6) := by
  by_cases h0 : r = 0
  · subst h0
    rw [if_pos rfl, List.append_nil,
      pyDecimalUnsigned_nofrac _ (natToDigitList_ne_nil w) (natToDigitList_digits w),
      natToDigitList_val]
    congr 1
    push_cast
    field_simp
  · rw [if_neg h0]
    obtain ⟨k, hk⟩ := rstripZeros_spec (frac6Digits r)
    have hr' : r < 1000000 := by norm_num at hr; exact hr
    have hdvfts : digitsVal (rstripZeros (frac6Digits r)) * 10 ^ k = r := by
      rw [← digitsVal_append_zeros, ← hk, frac6Digits_val r hr']
    have hlen : (rstripZeros (frac6Digits r)).length + k = 6 := by
      have hc := congrArg List.length hk
      rw [frac6Digits_length, List.length_append, List.length_replicate] at hc
      omega
    have hftsne : rstripZeros (frac6Digits r) ≠ [] := by
      intro hnil
      rw [hnil] at hdvfts
      simp [digitsVal] at hdvfts
      exact h0 hdvfts.symm
    rw [pyDecimalUnsigned_frac _ _ (natToDigitList_ne_nil w) (natToDigitList_digits w)
      hftsne (fun c hc => frac6Digits_all_digits r c (rstripZeros_subset _ c hc)),
      natToDigitList_val]
    rw [show (r : ℚ) = (digitsVal (rstripZeros (frac6Digits r)) : ℚ) * 10 ^ k by
      exact_mod_cast congrArg (Nat.cast (R := ℚ)) hdvfts.symm]
    rw [show (10 : ℚ) ^ 6 = 10 ^ ((rstripZeros (frac6Digits r)).length + k) by rw [hlen]]
    rw [pow_add]
    field_simp
    ring

theorem rstripZeros_frac6_ne_nil (r : ℕ) (hr : r < 10 ^ 6) (h0 : r ≠ 0) :
    rstripZeros (frac6Digits r) ≠ [] := by
  obtain ⟨k, hk⟩ := rstripZeros_spec (frac6Digits r)
  have hr' : r < 1000000 := by norm_num at hr; exact hr
  have hdvfts : digitsVal (rstripZeros (frac6Digits r)) * 10 ^ k = r := by
    rw [← digitsVal_append_zeros, ← hk, frac6Digits_val r hr']
  intro hnil
  rw [hnil] at hdvfts
  simp [digitsVal] at hdvfts
  exact h0 hdvfts.symm

theorem unsigned_token_shape_wr (w r : ℕ) (hr : r < 10 ^ 6) :
    unsignedShapeB (natToDigitList w
      ++ (if r = 0 then [] else '.' :: rstripZeros (frac6Digits r))) = true := by
  by_cases h0 : r = 0
  · rw [if_pos h0, List.append_nil]
    exact unsignedShapeB_nofrac _ (natToDigitList_ne_nil w) (natToDigitList_digits w)
  · rw [if_neg h0]
    exact unsignedShapeB_frac _ _ (natToDigitList_ne_nil w) (natToDigitList_digits w)
      (rstripZeros_frac6_ne_nil r hr h0)
      (fun c hc => frac6Digits_all_digits r c (rstripZeros_subset _ c hc))

theorem token_shape_wr (sign : List Char) (hsign : sign = [] ∨ sign = ['-'])
    (w r : ℕ) (hr : r < 10 ^ 6) :
    numShapeB (sign ++ (natToDigitList w
      ++ (if r = 0 then [] else '.' :: rstripZeros (frac6Digits r)))) = true := by
  have hunsigned := unsigned_token_shape_wr w r hr
  rcases hsign with hs | hs <;> subst hs
  · rw [List.nil_append]
    rcases hw : natToDigitList w with _ | ⟨d, dt⟩
    · exact absurd hw (natToDigitList_ne_nil w)
    · have hd : Char.isDigit d = true :=
        natToDigitList_digits w d (by rw [hw]; exact List.mem_cons_self d dt)
      rw [hw, List.cons_append] at hunsigned
      rw [List.cons_append, numShapeB_not_dash d _ (digit_ne_dash d hd)]
      exact hunsigned
  · rw [List.singleton_append, numShapeB_cons_dash]
    exact hunsigned

theorem pyDecimal_wr (sign : List Char) (hsign : sign = [] ∨ sign = ['-'])
    (w r : ℕ) (hr : r < 10 ^ 6) :
    pyDecimal (sign ++ (natToDigitList w
        ++ (if r = 0 then [] else '.' :: rstripZeros (frac6Digits r))))
      = some ((if sign = [] then 1 else -1) * ((w : ℚ) * 10 ^ 6 + (r : ℚ)) / 10 ^ 6) := by
  rcases hsign with hs | hs <;> subst hs
  · rw [List.nil_append, if_pos rfl, one_mul]
    rcases hw : natToDigitList w with _ | ⟨d, dt⟩
    · exact absurd hw (natToDigitList_ne_nil w)
    · have hd : Char.isDigit d = true :=
        natToDigitList_digits w d (by rw [hw]; exact List.mem_cons_self d dt)
      rw [List.cons_append, pyDecimal, if_neg (digit_ne_dash d hd),
        ← List.cons_append, ← hw]
      exact pyDecimalUnsigned_wr w r hr
  · rw [List.singleton_append]
    rw [show pyDecimal ('-' :: (natToDigitList w
          ++ (if r = 0 then [] else '.' :: rstripZeros (frac6Digits r))))
        = (pyDecimalUnsigned (natToDigitList w
          ++ (if r = 0 then [] else '.' :: rstripZeros (frac6Digits r)))).map
            (fun q => -q) from rfl]
    rw [pyDecimalUnsigned_wr w r hr]
    rw [show (some (((w : ℚ) * 10 ^ 6 + (r : ℚ)) / 10 ^ 6)).map (fun q => -q)
        = some (-(((w : ℚ) * 10 ^ 6 + (r : ℚ)) / 10 ^ 6)) from rfl]
    rw [if_neg (show ¬((['-'] : List Char) = []) from by decide)]
    congr 1
    ring

theorem strip_format_core (sign : List Char)
    (w r : ℕ) (hr : r < 10 ^ 6) :
    rstripDots (rstripZeros ((sign ++ group3 (natToDigitList w)) ++ '.' :: frac6Digits r))
      = (sign ++ group3 (natToDigitList w))
        ++ (if r = 0 then [] else '.' :: rstripZeros (frac6Digits r)) := by
  obtain ⟨d0, tw, hwrev⟩ : ∃ d0 tw, (natToDigitList w).reverse = d0 :: tw := by
    rcases hx : (natToDigitList w).reverse with _ | ⟨d0, tw⟩
    · exact absurd (List.reverse_eq_nil_iff.mp hx) (natToDigitList_ne_nil w)
    · exact ⟨d0, tw, rfl⟩
  have hd0 : Char.isDigit d0 = true :=
    natToDigitList_digits w d0
      (by rw [← List.mem_reverse, hwrev]; exact List.mem_cons_self _ _)
  obtain ⟨gt, hgrev⟩ : ∃ gt, (group3 (natToDigitList w)).reverse = d0 :: gt := by
    have h1 := group3_reverse (natToDigitList w)
    have h2 : (group3Rev (natToDigitList w).reverse).head? = some d0 := by
      rw [group3Rev_head, hwrev]
      rfl
    rcases hx : group3Rev (natToDigitList w).reverse with _ | ⟨a, t⟩
    · rw [hx] at h2
      cases h2
    · rw [hx] at h2
      injection h2 with h2
      exact ⟨t, by rw [h1, hx, h2]⟩
  have hXrev : (sign ++ group3 (natToDigitList w)).reverse = d0 :: (gt ++ sign.reverse) := by
    rw [List.reverse_append, hgrev, List.cons_append]
  rw [rstripZeros_append_dot]
  by_cases h0 : r = 0
  · subst h0
    rw [show rstripZeros (frac6Digits 0) = [] from by decide]
    rw [if_pos rfl, List.append_nil]
    exact rstripDots_append_dot _ d0 _ hXrev (digit_char_ne d0 hd0).2.2.2.2.2.1
  · rw [if_neg h0]
    have hftsne := rstripZeros_frac6_ne_nil r hr h0
    obtain ⟨cf, tf, hfrev⟩ : ∃ cf tf, (rstripZeros (frac6Digits r)).reverse = cf :: tf := by
      rcases hx : (rstripZeros (frac6Digits r)).reverse with _ | ⟨cf, tf⟩
      · exact absurd (List.reverse_eq_nil_iff.mp hx) hftsne
      · exact ⟨cf, tf, rfl⟩
    have hcf : Char.isDigit cf = true := by
      apply frac6Digits_all_digits r
      apply rstripZeros_subset
      rw [← List.mem_reverse, hfrev]
      exact List.mem_cons_self _ _
    apply rstripDots_of_last _ cf (tf ++ '.' :: (sign ++ group3 (natToDigitList w)).reverse)
    · rw [List.reverse_append, List.reverse_cons, hfrev]
      simp [List.append_assoc]
    · exact (digit_char_ne cf hcf).2.2.2.2.2.1

theorem sanitize_format_core (sign : List Char) (hsign : sign = [] ∨ sign = ['-'])
    (w r : ℕ) :
    sanitizeChars (String.mk ((sign ++ group3 (natToDigitList w))
        ++ (if r = 0 then [] else '.' :: rstripZeros (frac6Digits r))))
      = sign ++ (natToDigitList w
        ++ (if r = 0 then [] else '.' :: rstripZeros (frac6Digits r))) := by
  have hdp_mem : ∀ c ∈ (if r = 0 then ([] : List Char)
      else '.' :: rstripZeros (frac6Digits r)), c = '.' ∨ Char.isDigit c = true := by
    by_cases h0 : r = 0
    · simp [h0]
    · rw [if_neg h0]
      intro c hc
      rcases List.mem_cons.mp hc with hc | hc
      · exact Or.inl hc
      · exact Or.inr (frac6Digits_all_digits r c (rstripZeros_subset _ c hc))
  have hsign_mem : ∀ c ∈ sign, c = '-' := by
    rcases hsign with hs | hs <;> subst hs
    · simp
    · intro c hc
      simpa using hc
  have hwd := natToDigitList_digits w
  -- characters of the comma-free token
  have hclean : ∀ c ∈ sign ++ (natToDigitList w
      ++ (if r = 0 then [] else '.' :: rstripZeros (frac6Digits r))),
      c = '-' ∨ c = '.' ∨ Char.isDigit c = true := by
    intro c hc
    rcases List.mem_append.mp hc with hc | hc
    · exact Or.inl (hsign_mem c hc)
    · rcases List.mem_append.mp hc with hc | hc
      · exact Or.inr (Or.inr (hwd c hc))
      · rcases hdp_mem c hc with hc | hc
        · exact Or.inr (Or.inl hc)
        · exact Or.inr (Or.inr hc)
  unfold sanitizeChars
  rw [show (String.mk ((sign ++ group3 (natToDigitList w))
      ++ (if r = 0 then [] else '.' :: rstripZeros (frac6Digits r)))).toList
    = (sign ++ group3 (natToDigitList w))
      ++ (if r = 0 then [] else '.' :: rstripZeros (frac6Digits r)) from rfl]
  have hstage1 : ((sign ++ group3 (natToDigitList w))
      ++ (if r = 0 then [] else '.' :: rstripZeros (frac6Digits r))).filter
        (fun c => decide (c ≠ ','))
      = sign ++ (natToDigitList w
        ++ (if r = 0 then [] else '.' :: rstripZeros (frac6Digits r))) := by
    rw [List.filter_append, List.filter_append]
    rw [show sign.filter (fun c => decide (c ≠ ',')) = sign from
      List.filter_eq_self.mpr (fun c hc => by simp [hsign_mem c hc])]
    rw [group3_filter (natToDigitList w)
      (fun c hc => (digit_char_ne c (hwd c hc)).2.2.2.1)]
    rw [show (if r = 0 then ([] : List Char)
        else '.' :: rstripZeros (frac6Digits r)).filter (fun c => decide (c ≠ ','))
      = (if r = 0 then ([] : List Char) else '.' :: rstripZeros (frac6Digits r)) from
      List.filter_eq_self.mpr (fun c hc => by
        rcases hdp_mem c hc with h | h
        · simp [h]
        · simp [(digit_char_ne c h).2.2.2.1])]
    rw [List.append_assoc]
  rw [hstage1]
  rw [show (sign ++ (natToDigitList w
      ++ (if r = 0 then [] else '.' :: rstripZeros (frac6Digits r)))).filter
        (fun c => decide (c ≠ '$'))
    = sign ++ (natToDigitList w
      ++ (if r = 0 then [] else '.' :: rstripZeros (frac6Digits r))) from
    List.filter_eq_self.mpr (fun c hc => by
      rcases hclean c hc with h | h | h
      · simp [h]
      · simp [h]
      · simp [(digit_char_ne c h).2.2.2.2.1])]
  rw [removeUSD_id _ (fun c hc => by
    rcases hclean c hc with h | h | h
    · rw [h]; decide
    · rw [h]; decide
    · exact (digit_char_ne c h).1)]
  rw [pythonStrip_id _ (fun c hc => by
    rcases hclean c hc with h | h | h
    · rw [h]; decide
    · rw [h]; decide
    · exact digit_not_space c h)]

theorem parse_format_core (sign : List Char) (hsign : sign = [] ∨ sign = ['-'])
    (w r : ℕ) (hr : r < 10 ^ 6) :
    parse_decimal_from_text (some (String.mk (rstripDots (rstripZeros
      ((sign ++ group3 (natToDigitList w)) ++ '.' :: frac6Digits r)))))
      = some ((if sign = [] then 1 else -1) * ((w : ℚ) * 10 ^ 6 + (r : ℚ)) / 10 ^ 6) := by
  rw [strip_format_core sign w r hr]
  simp only [parse_decimal_from_text]
  rw [sanitize_format_core sign hsign w r,
    searchNum_full _ (token_shape_wr sign hsign w r hr)]
  exact pyDecimal_wr sign hsign w r hr

/-- Claim C5 (amended): formatting a decimal value with format_decimal and
re-parsing with parse_decimal_from_text recovers the value whenever the
value has at most six fractional digits (value·10^6 an integer) — the
",.6f" format rounds away anything finer, so the round trip is exact on
that domain and only there. -/
theorem claim_C5_amended (v : ℚ) (h : ∃ n : ℤ, v = (n : ℚ) / 10 ^ 6) :
    parse_decimal_from_text (some (format_decimal v)) = some v := by
  obtain ⟨n, rfl⟩ := h
  have hround : roundHalfEven ((n : ℚ) / 10 ^ 6 * 10 ^ 6) = n := by
    rw [div_mul_cancel₀ _ (by norm_num : ((10 : ℚ) ^ 6) ≠ 0)]
    exact roundHalfEven_intCast n
  simp only [format_decimal, hround]
  have hr : n.natAbs % 10 ^ 6 < 10 ^ 6 := Nat.mod_lt _ (by norm_num)
  have hnat : ((n.natAbs / 10 ^ 6 : ℕ) : ℚ) * 10 ^ 6 + ((n.natAbs % 10 ^ 6 : ℕ) : ℚ)
      = (n.natAbs : ℚ) := by
    exact_mod_cast Nat.div_add_mod' n.natAbs (10 ^ 6)
  by_cases hn : n < 0
  · rw [if_pos hn, parse_format_core ['-'] (Or.inr rfl) _ _ hr]
    rw [if_neg (by decide : ¬((['-'] : List Char) = []))]
    congr 1
    have habs : ((n.natAbs : ℚ)) = -(n : ℚ) := by
      rw [Int.cast_natAbs, Int.cast_abs]
      exact abs_of_neg (by exact_mod_cast hn)
    rw [hnat, habs]
    ring
  · rw [if_neg hn, parse_format_core [] (Or.inl rfl) _ _ hr]
    rw [if_pos rfl]
    congr 1
    have habs : ((n.natAbs : ℚ)) = (n : ℚ) := by
      rw [Int.cast_natAbs, Int.cast_abs]
      exact abs_of_nonneg (by exact_mod_cast not_lt.mp hn)
    rw [hnat, habs]
    ring

/-- Counterexample to claim C5 as stated: 10^-7 needs seven fractional
digits, the ",.6f" format rounds it to "0", and re-parsing gives 0, not
the original value — more than trailing-zero trimming is lost. -/
theorem claim_C5_counterexample :
    parse_decimal_from_text (some (format_decimal (1 / 10 ^ 7 : ℚ))) = some 0
    ∧ (1 / 10 ^ 7 : ℚ) ≠ 0 := by
  constructor
  · have h1 : ((1 : ℚ) / 10 ^ 7 * 10 ^ 6) = 1 / 10 := by norm_num
    have hfloor : ⌊(1 / 10 : ℚ)⌋ = 0 := by
      rw [Int.floor_eq_zero_iff]
      constructor
      · norm_num
      · norm_num
    have h2 : roundHalfEven ((1 : ℚ) / 10 ^ 7 * 10 ^ 6) = 0 := by
      rw [h1]
      simp only [roundHalfEven, hfloor]
      norm_num
    have h3 : format_decimal (1 / 10 ^ 7 : ℚ) = "0" := by
      simp only [format_decimal, h2]
      decide
    rw [h3]
    have hs : searchNum (sanitizeChars "0") = some ['0'] := by decide
    simp only [parse_decimal_from_text, hs]
    rw [show pyDecimal ['0'] = some ((0 : ℕ) : ℚ) from rfl]
    norm_num
  · norm_num

/-- Witness for the amended claim C5 at the value one half, which has a
single fractional digit. -/
theorem claim_C5_witness :
    parse_decimal_from_text (some (format_decimal (1 / 2 : ℚ))) = some (1 / 2 : ℚ) :=
  claim_C5_amended (1 / 2) ⟨500000, by norm_num⟩
